import Mathlib

/-!
Verification of the LongShotPDF core image pipeline
(`detectSplitPoints`, `sharpenImage`, `trimEmptySpace`, `sliceImage`).

Images are modelled as a width, a height and a pixel function giving the
RGBA samples that `getImageData` would return at each coordinate; machine
numbers are `ℕ`, and the JavaScript floating-point intermediate values
(brightness averages, contrast arithmetic, the 0.8 dark factor) are `ℚ`.
Drawing an image (or a sub-rectangle of it) onto a canvas is modelled as an
exact pixel copy of that rectangle.
-/

/-- One RGBA pixel as returned by `getImageData` (each sample 0–255). -/
structure RGBA where
  r : ℕ
  g : ℕ
  b : ℕ
  a : ℕ
deriving DecidableEq, Repr

/-- A decoded image: dimensions plus the pixel grid. `pix x y` is the pixel
in column `x` of row `y`; only coordinates with `x < width`, `y < height`
are meaningful. -/
structure Image where
  width : ℕ
  height : ℕ
  pix : ℕ → ℕ → RGBA

/-- Extensional equality of images: same dimensions and the same pixel
content at every in-range coordinate. -/
def Image.Eqv (i1 i2 : Image) : Prop :=
  i1.width = i2.width ∧ i1.height = i2.height ∧
    ∀ x < i1.width, ∀ y < i1.height, i1.pix x y = i2.pix x y

instance (i1 i2 : Image) : Decidable (i1.Eqv i2) := by
  unfold Image.Eqv; infer_instance

/-- All in-range coordinates `(x, y)` of an image, row by row (the iteration
order of the source's nested `for (y) for (x)` loops). -/
def allCoords (img : Image) : List (ℕ × ℕ) :=
  (List.range img.height).flatMap fun y => (List.range img.width).map fun x => (x, y)

theorem mem_allCoords (img : Image) (c : ℕ × ℕ) :
    c ∈ allCoords img ↔ c.1 < img.width ∧ c.2 < img.height := by
  unfold allCoords
  simp only [List.mem_flatMap, List.mem_map, List.mem_range]
  constructor
  · rintro ⟨y, hy, x, hx, rfl⟩; exact ⟨hx, hy⟩
  · rintro ⟨hx, hy⟩; exact ⟨c.2, hy, c.1, hx, rfl⟩

/-! ## Trimmer (`trimEmptySpace`, src/unnamed/part_000 lines 212–261) -/

/-- The content test of `trimEmptySpace` line 231: a pixel is content
(non-background) iff `r < 250 || g < 250 || b < 250 || a > 0`. -/
def isContent (p : RGBA) : Bool :=
  decide (p.r < 250) || decide (p.g < 250) || decide (p.b < 250) || decide (0 < p.a)

/-- The four bound variables `top`, `bottom`, `left`, `right` of
`trimEmptySpace`. -/
structure Bounds where
  top : ℕ
  bottom : ℕ
  left : ℕ
  right : ℕ
deriving DecidableEq, Repr

/-- One step of the bound-update loop (lines 231–236): on a content pixel,
lower `top`/`left` and raise `bottom`/`right` to cover it. -/
def updateBounds (img : Image) (b : Bounds) (c : ℕ × ℕ) : Bounds :=
  if isContent (img.pix c.1 c.2) then
    ⟨min b.top c.2, max b.bottom c.2, min b.left c.1, max b.right c.1⟩
  else b

/-- The bounds after the full double scan, starting from
`top = height, bottom = 0, left = width, right = 0` (lines 221–224). -/
def contentBounds (img : Image) : Bounds :=
  (allCoords img).foldl (updateBounds img) ⟨img.height, 0, img.width, 0⟩

/-- `trimEmptySpace` (lines 212–261): if the bounds are degenerate
(`top >= bottom || left >= right`, line 241) return the input unchanged;
otherwise return the crop to the inclusive rectangle
`[left, right] × [top, bottom]` (lines 246–258). -/
def trimEmptySpace (img : Image) : Image :=
  let B := contentBounds img
  if B.bottom ≤ B.top ∨ B.right ≤ B.left then img
  else
    { width := B.right - B.left + 1
      height := B.bottom - B.top + 1
      pix := fun x y => img.pix (x + B.left) (y + B.top) }

/-! ### Bound-fold lemmas -/

theorem foldBounds_init_le (img : Image) :
    ∀ (l : List (ℕ × ℕ)) (b : Bounds),
      (l.foldl (updateBounds img) b).top ≤ b.top ∧
      b.bottom ≤ (l.foldl (updateBounds img) b).bottom ∧
      (l.foldl (updateBounds img) b).left ≤ b.left ∧
      b.right ≤ (l.foldl (updateBounds img) b).right := by
  intro l
  induction l with
  | nil => intro b; simp
  | cons c t ih =>
    intro b
    simp only [List.foldl_cons]
    by_cases hc : isContent (img.pix c.1 c.2)
    · have hub : updateBounds img b c =
          ⟨min b.top c.2, max b.bottom c.2, min b.left c.1, max b.right c.1⟩ := by
        unfold updateBounds; simp [hc]
      rw [hub]
      have h := ih ⟨min b.top c.2, max b.bottom c.2, min b.left c.1, max b.right c.1⟩
      exact ⟨le_trans h.1 (min_le_left _ _), le_trans (le_max_left _ _) h.2.1,
        le_trans h.2.2.1 (min_le_left _ _), le_trans (le_max_left _ _) h.2.2.2⟩
    · have hub : updateBounds img b c = b := by unfold updateBounds; simp [hc]
      rw [hub]; exact ih b

theorem foldBounds_covers (img : Image) :
    ∀ (l : List (ℕ × ℕ)) (b : Bounds) (c : ℕ × ℕ), c ∈ l →
      isContent (img.pix c.1 c.2) = true →
      (l.foldl (updateBounds img) b).top ≤ c.2 ∧
      c.2 ≤ (l.foldl (updateBounds img) b).bottom ∧
      (l.foldl (updateBounds img) b).left ≤ c.1 ∧
      c.1 ≤ (l.foldl (updateBounds img) b).right := by
  intro l
  induction l with
  | nil => intro b c hc; simp at hc
  | cons d t ih =>
    intro b c hc hcont
    simp only [List.foldl_cons]
    rcases List.mem_cons.mp hc with rfl | hmem
    · have hub : updateBounds img b c =
          ⟨min b.top c.2, max b.bottom c.2, min b.left c.1, max b.right c.1⟩ := by
        unfold updateBounds; simp [hcont]
      rw [hub]
      have h := foldBounds_init_le img t
        ⟨min b.top c.2, max b.bottom c.2, min b.left c.1, max b.right c.1⟩
      exact ⟨le_trans h.1 (min_le_right _ _), le_trans (le_max_right _ _) h.2.1,
        le_trans h.2.2.1 (min_le_right _ _), le_trans (le_max_right _ _) h.2.2.2⟩
    · exact ih (updateBounds img b d) c hmem hcont

theorem foldBounds_attained (img : Image) :
    ∀ (l : List (ℕ × ℕ)) (b : Bounds),
      ((l.foldl (updateBounds img) b).top = b.top ∨
        ∃ c ∈ l, isContent (img.pix c.1 c.2) = true ∧
          (l.foldl (updateBounds img) b).top = c.2) ∧
      ((l.foldl (updateBounds img) b).bottom = b.bottom ∨
        ∃ c ∈ l, isContent (img.pix c.1 c.2) = true ∧
          (l.foldl (updateBounds img) b).bottom = c.2) ∧
      ((l.foldl (updateBounds img) b).left = b.left ∨
        ∃ c ∈ l, isContent (img.pix c.1 c.2) = true ∧
          (l.foldl (updateBounds img) b).left = c.1) ∧
      ((l.foldl (updateBounds img) b).right = b.right ∨
        ∃ c ∈ l, isContent (img.pix c.1 c.2) = true ∧
          (l.foldl (updateBounds img) b).right = c.1) := by
  intro l
  induction l with
  | nil => intro b; simp
  | cons d t ih =>
    intro b
    simp only [List.foldl_cons]
    by_cases hc : isContent (img.pix d.1 d.2)
    · have hub : updateBounds img b d =
          ⟨min b.top d.2, max b.bottom d.2, min b.left d.1, max b.right d.1⟩ := by
        unfold updateBounds; simp [hc]
      rw [hub]
      have h := ih ⟨min b.top d.2, max b.bottom d.2, min b.left d.1, max b.right d.1⟩
      refine ⟨?_, ?_, ?_, ?_⟩
      · rcases h.1 with h1 | ⟨c, hcm, hcc, hce⟩
        · rcases min_cases b.top d.2 with ⟨he, _⟩ | ⟨he, _⟩
          · left; rw [h1]; exact he
          · right; exact ⟨d, List.mem_cons_self d t, hc, by rw [h1]; exact he⟩
        · right; exact ⟨c, List.mem_cons_of_mem d hcm, hcc, hce⟩
      · rcases h.2.1 with h1 | ⟨c, hcm, hcc, hce⟩
        · rcases max_cases b.bottom d.2 with ⟨he, _⟩ | ⟨he, _⟩
          · left; rw [h1]; exact he
          · right; exact ⟨d, List.mem_cons_self d t, hc, by rw [h1]; exact he⟩
        · right; exact ⟨c, List.mem_cons_of_mem d hcm, hcc, hce⟩
      · rcases h.2.2.1 with h1 | ⟨c, hcm, hcc, hce⟩
        · rcases min_cases b.left d.1 with ⟨he, _⟩ | ⟨he, _⟩
          · left; rw [h1]; exact he
          · right; exact ⟨d, List.mem_cons_self d t, hc, by rw [h1]; exact he⟩
        · right; exact ⟨c, List.mem_cons_of_mem d hcm, hcc, hce⟩
      · rcases h.2.2.2 with h1 | ⟨c, hcm, hcc, hce⟩
        · rcases max_cases b.right d.1 with ⟨he, _⟩ | ⟨he, _⟩
          · left; rw [h1]; exact he
          · right; exact ⟨d, List.mem_cons_self d t, hc, by rw [h1]; exact he⟩
        · right; exact ⟨c, List.mem_cons_of_mem d hcm, hcc, hce⟩
    · have hub : updateBounds img b d = b := by unfold updateBounds; simp [hc]
      rw [hub]
      have h := ih b
      refine ⟨?_, ?_, ?_, ?_⟩
      · rcases h.1 with h1 | ⟨c, hcm, hcc, hce⟩
        · exact Or.inl h1
        · exact Or.inr ⟨c, List.mem_cons_of_mem d hcm, hcc, hce⟩
      · rcases h.2.1 with h1 | ⟨c, hcm, hcc, hce⟩
        · exact Or.inl h1
        · exact Or.inr ⟨c, List.mem_cons_of_mem d hcm, hcc, hce⟩
      · rcases h.2.2.1 with h1 | ⟨c, hcm, hcc, hce⟩
        · exact Or.inl h1
        · exact Or.inr ⟨c, List.mem_cons_of_mem d hcm, hcc, hce⟩
      · rcases h.2.2.2 with h1 | ⟨c, hcm, hcc, hce⟩
        · exact Or.inl h1
        · exact Or.inr ⟨c, List.mem_cons_of_mem d hcm, hcc, hce⟩

theorem foldBounds_const (img : Image) :
    ∀ (l : List (ℕ × ℕ)) (b : Bounds),
      (∀ c ∈ l, isContent (img.pix c.1 c.2) = false) →
      l.foldl (updateBounds img) b = b := by
  intro l
  induction l with
  | nil => intro b _; rfl
  | cons d t ih =>
    intro b hall
    simp only [List.foldl_cons]
    have hd : updateBounds img b d = b := by
      unfold updateBounds; simp [hall d (List.mem_cons_self d t)]
    rw [hd]
    exact ih b fun c hc => hall c (List.mem_cons_of_mem d hc)

/-! ## LineDetector (`detectSplitPoints`, src/unnamed/part_000 lines 125–205) -/

/-- Brightness of a pixel, line 155: the unweighted mean `(r + g + b) / 3`
computed in floating point, modelled exactly in `ℚ`. -/
def brightnessQ (p : RGBA) : ℚ :=
  ((p.r : ℚ) + (p.g : ℚ) + (p.b : ℚ)) / 3

/-- Number of pixels of row `y` whose brightness is strictly below
`threshold` (lines 146–161). -/
def blackPixelCount (img : Image) (threshold : ℚ) (y : ℕ) : ℕ :=
  ((List.range img.width).filter fun x => decide (brightnessQ (img.pix x y) < threshold)).length

/-- Row classification, lines 163–167: a row is part of a black line iff
`(blackPixelCount / width) * 100 > minLinePercent`.  When `width = 0` the
JavaScript computation is `NaN > minLinePercent`, which is `false`; the
`width ≠ 0` guard reproduces that. -/
def isBlackLine (img : Image) (threshold minLinePercent : ℚ) (y : ℕ) : Bool :=
  decide (img.width ≠ 0) &&
    decide (((blackPixelCount img threshold y : ℚ) / (img.width : ℚ)) * 100 > minLinePercent)

/-- One iteration of the row loop (lines 170–182) acting on the state
`(currentLineStart, blackLines)`; `none` plays the role of
`currentLineStart === -1`. -/
def detectStep (q : ℕ → Bool) (minLineWidth : ℕ) (st : Option ℕ × List ℕ) (y : ℕ) :
    Option ℕ × List ℕ :=
  match st.1, q y with
  | none, true => (some y, st.2)
  | none, false => st
  | some _, true => st
  | some s, false =>
      (none, if minLineWidth ≤ y - s then st.2 ++ [s + (y - s) / 2] else st.2)

/-- Closing an open run at position `e` (the end-of-image handling of
lines 186–191, with `e = height`; `Math.floor(s + len / 2)` is `s + len / 2`
in `ℕ`). -/
def closeRun (minLineWidth e : ℕ) : Option ℕ × List ℕ → List ℕ
  | (some s, acc) => if minLineWidth ≤ e - s then acc ++ [s + (e - s) / 2] else acc
  | (none, acc) => acc

/-- The raw split points (the `blackLines` array right before the
minimum-separation filter, lines 144–191), for an abstract row
classification `q`. -/
def blackLines (q : ℕ → Bool) (minLineWidth height : ℕ) : List ℕ :=
  closeRun minLineWidth height ((List.range height).foldl (detectStep q minLineWidth) (none, []))

/-- One iteration of the minimum-separation filter (lines 197–202), acting
on the state `(lastLine, filteredLines)`; `lastLine` is an integer because
it starts at `-50`. -/
def filterStep (st : ℤ × List ℕ) (line : ℕ) : ℤ × List ℕ :=
  if (line : ℤ) - st.1 > 50 then ((line : ℤ), st.2 ++ [line]) else st

/-- The minimum-separation filter (lines 193–204): keep a point iff it is
more than 50 past the last kept point, starting from `lastLine = -50`. -/
def filterClose (lines : List ℕ) : List ℕ :=
  (lines.foldl filterStep (-50, [])).2

/-- `detectSplitPoints` (lines 125–205): raw run-midpoint collection
followed by the minimum-separation filter. -/
def detectSplitPoints (img : Image) (threshold : ℚ) (minLineWidth : ℕ)
    (minLinePercent : ℚ) : List ℕ :=
  filterClose (blackLines (isBlackLine img threshold minLinePercent) minLineWidth img.height)

/-! ### Specification-level view of the raw collection: maximal runs -/

/-- Length of the maximal stretch of consecutive qualifying rows starting
at row `y` (and stopping at `h`). -/
def runLen (q : ℕ → Bool) (h : ℕ) (y : ℕ) : ℕ :=
  if hq : y < h ∧ q y = true then runLen q h (y + 1) + 1 else 0
termination_by h - y
decreasing_by omega

theorem runLen_of_neg (q : ℕ → Bool) (h y : ℕ) (hq : ¬(y < h ∧ q y = true)) :
    runLen q h y = 0 := by
  rw [runLen]; simp [hq]

theorem runLen_of_pos (q : ℕ → Bool) (h y : ℕ) (hy : y < h) (hq : q y = true) :
    runLen q h y = runLen q h (y + 1) + 1 := by
  rw [runLen]; simp [hy, hq]

theorem runLen_pos (q : ℕ → Bool) (h y : ℕ) (hy : y < h) (hq : q y = true) :
    0 < runLen q h y := by
  rw [runLen_of_pos q h y hy hq]; omega

theorem runLen_le (q : ℕ → Bool) (h : ℕ) :
    ∀ n y, h - y ≤ n → y ≤ h → y + runLen q h y ≤ h := by
  intro n
  induction n with
  | zero =>
    intro y hn hy
    rw [runLen_of_neg q h y (fun hc => absurd hc.1 (by omega))]
    omega
  | succ n ih =>
    intro y hn hy
    by_cases hq : y < h ∧ q y = true
    · rw [runLen_of_pos q h y hq.1 hq.2]
      have := ih (y + 1) (by omega) (by omega)
      omega
    · rw [runLen_of_neg q h y hq]; omega

theorem runLen_end (q : ℕ → Bool) (h : ℕ) :
    ∀ n y, h - y ≤ n → y ≤ h →
      y + runLen q h y = h ∨
        (y + runLen q h y < h ∧ q (y + runLen q h y) = false) := by
  intro n
  induction n with
  | zero =>
    intro y hn hy
    rw [runLen_of_neg q h y (fun hc => absurd hc.1 (by omega))]
    omega
  | succ n ih =>
    intro y hn hy
    by_cases hq : y < h ∧ q y = true
    · rw [runLen_of_pos q h y hq.1 hq.2]
      have := ih (y + 1) (by omega) (by omega)
      rcases this with h1 | ⟨h1, h2⟩
      · left; omega
      · right
        refine ⟨by omega, ?_⟩
        have : y + (runLen q h (y + 1) + 1) = y + 1 + runLen q h (y + 1) := by omega
        rw [this]; exact h2
    · rw [runLen_of_neg q h y hq]
      rcases Nat.lt_or_ge y h with hlt | hge
      · right
        refine ⟨by omega, ?_⟩
        simp only [Nat.add_zero]
        rcases Bool.eq_false_or_eq_true (q y) with ht | hf
        · exact absurd ⟨hlt, ht⟩ hq
        · exact hf
      · left; omega

theorem runLen_all_true (q : ℕ → Bool) (h : ℕ) :
    ∀ n y, h - y ≤ n → ∀ i, y ≤ i → i < y + runLen q h y → q i = true := by
  intro n
  induction n with
  | zero =>
    intro y hn i hyi hi
    by_cases hq : y < h ∧ q y = true
    · omega
    · rw [runLen_of_neg q h y hq] at hi; omega
  | succ n ih =>
    intro y hn i hyi hi
    by_cases hq : y < h ∧ q y = true
    · rw [runLen_of_pos q h y hq.1 hq.2] at hi
      rcases Nat.eq_or_lt_of_le hyi with rfl | hlt
      · exact hq.2
      · exact ih (y + 1) (by omega) i (by omega) (by omega)
    · rw [runLen_of_neg q h y hq] at hi; omega

/-- The claim-side characterisation: `runLen` equals `L` for any run that is
all-qualifying on `[y, y + L)` and ends at `h` or at a non-qualifying row. -/
theorem runLen_eq_of_run (q : ℕ → Bool) (h : ℕ) :
    ∀ L y, (∀ i, y ≤ i → i < y + L → q i = true) → y + L ≤ h →
      (y + L = h ∨ q (y + L) = false) → runLen q h y = L := by
  intro L
  induction L with
  | zero =>
    intro y _ _ hend
    simp only [Nat.add_zero] at hend
    apply runLen_of_neg
    rintro ⟨hy, hq⟩
    rcases hend with rfl | hf
    · omega
    · rw [hq] at hf; cases hf
  | succ L ih =>
    intro y hall hle hend
    have hy : y < h := by omega
    have hq : q y = true := hall y (by omega) (by omega)
    rw [runLen_of_pos q h y hy hq]
    have := ih (y + 1) (fun i h1 h2 => hall i (by omega) (by omega)) (by omega)
      (by rcases hend with h1 | h1
          · left; omega
          · right
            have : y + 1 + L = y + (L + 1) := by omega
            rw [this]; exact h1)
    omega

/-- The ordered sequence of maximal qualifying runs `(start, length)` at or
after row `y`, written independently of the scanning loop. -/
def runsFrom (q : ℕ → Bool) (h : ℕ) (y : ℕ) : List (ℕ × ℕ) :=
  if hy : y < h then
    if hq : q y = true then
      (y, runLen q h y) :: runsFrom q h (y + runLen q h y)
    else runsFrom q h (y + 1)
  else []
termination_by h - y
decreasing_by
  · have := runLen_pos q h y hy hq; omega
  · omega

theorem runsFrom_stop (q : ℕ → Bool) (h y : ℕ) (hy : h ≤ y) : runsFrom q h y = [] := by
  rw [runsFrom]; simp [Nat.not_lt.mpr hy]

theorem runsFrom_skip (q : ℕ → Bool) (h y : ℕ) (hy : y < h) (hq : q y = false) :
    runsFrom q h y = runsFrom q h (y + 1) := by
  rw [runsFrom]; simp [hy, hq]

theorem runsFrom_run (q : ℕ → Bool) (h y : ℕ) (hy : y < h) (hq : q y = true) :
    runsFrom q h y = (y, runLen q h y) :: runsFrom q h (y + runLen q h y) := by
  rw [runsFrom]; simp [hy, hq]

/-- Emission of one run by the raw collection: a midpoint
`start + len / 2` iff the run is at least `minLineWidth` tall. -/
def emitRun (minLineWidth : ℕ) (r : ℕ × ℕ) : Option ℕ :=
  if minLineWidth ≤ r.2 then some (r.1 + r.2 / 2) else none

/-- List form of `emitRun` for an open run from `s` closed at `e`. -/
def emitIf (minLineWidth s e : ℕ) : List ℕ :=
  if minLineWidth ≤ e - s then [s + (e - s) / 2] else []

theorem detectStep_none_true (q : ℕ → Bool) (minW y : ℕ) (acc : List ℕ)
    (hq : q y = true) : detectStep q minW (none, acc) y = (some y, acc) := by
  simp [detectStep, hq]

theorem detectStep_none_false (q : ℕ → Bool) (minW y : ℕ) (acc : List ℕ)
    (hq : q y = false) : detectStep q minW (none, acc) y = (none, acc) := by
  simp [detectStep, hq]

theorem detectStep_some_true (q : ℕ → Bool) (minW y s : ℕ) (acc : List ℕ)
    (hq : q y = true) : detectStep q minW (some s, acc) y = (some s, acc) := by
  simp [detectStep, hq]

theorem detectStep_some_false (q : ℕ → Bool) (minW y s : ℕ) (acc : List ℕ)
    (hq : q y = false) :
    detectStep q minW (some s, acc) y =
      (none, if minW ≤ y - s then acc ++ [s + (y - s) / 2] else acc) := by
  simp [detectStep, hq]

theorem runsFrom_at_end (q : ℕ → Bool) (h y : ℕ) (hy : y ≤ h) :
    runsFrom q h (y + runLen q h y) = runsFrom q h (y + runLen q h y + 1) := by
  rcases runLen_end q h (h - y) y le_rfl hy with h1 | ⟨h1, h2⟩
  · rw [h1, runsFrom_stop q h h le_rfl, runsFrom_stop q h (h + 1) (by omega)]
  · exact runsFrom_skip q h _ h1 h2

/-- The scanning loop of `detectSplitPoints`, started at row `y` in either
loop state, produces exactly the midpoint emissions of the maximal runs at
or after `y`. -/
theorem scanRuns (q : ℕ → Bool) (minW : ℕ) :
    ∀ n h y acc, h = y + n →
      (closeRun minW h ((List.range' y n).foldl (detectStep q minW) (none, acc))
          = acc ++ (runsFrom q h y).filterMap (emitRun minW)) ∧
      (∀ s, closeRun minW h ((List.range' y n).foldl (detectStep q minW) (some s, acc))
          = acc ++ emitIf minW s (y + runLen q h y)
              ++ (runsFrom q h (y + runLen q h y + 1)).filterMap (emitRun minW)) := by
  intro n
  induction n with
  | zero =>
    intro h y acc hh
    have hy : h = y := by omega
    subst hy
    have hr0 : runLen q h h = 0 := runLen_of_neg q h h (fun hc => absurd hc.1 (by omega))
    constructor
    · rw [runsFrom_stop q h h le_rfl]
      simp [closeRun]
    · intro s
      rw [hr0]
      rw [runsFrom_stop q h (h + 0 + 1) (by omega)]
      simp only [List.range', List.foldl_nil, List.filterMap_nil, List.append_nil]
      unfold closeRun emitIf
      by_cases hms : minW ≤ h - s <;> simp [hms]
  | succ n ih =>
    intro h y acc hh
    have hyh : y < h := by omega
    rw [List.range'_succ]
    simp only [List.foldl_cons]
    constructor
    · cases hqy : q y with
      | true =>
        rw [detectStep_none_true q minW y acc hqy]
        have h2 := (ih h (y + 1) acc (by omega)).2 y
        rw [h2]
        have hrl : runLen q h y = runLen q h (y + 1) + 1 := runLen_of_pos q h y hyh hqy
        have he : y + 1 + runLen q h (y + 1) = y + runLen q h y := by omega
        rw [he]
        rw [runsFrom_run q h y hyh hqy]
        rw [← runsFrom_at_end q h y (by omega)]
        have hdiff : y + runLen q h y - y = runLen q h y := by omega
        unfold emitIf emitRun
        rw [hdiff]
        by_cases hms : minW ≤ runLen q h y <;> simp [hms]
      | false =>
        rw [detectStep_none_false q minW y acc hqy]
        have h1 := (ih h (y + 1) acc (by omega)).1
        rw [h1, runsFrom_skip q h y hyh hqy]
    · intro s
      cases hqy : q y with
      | true =>
        rw [detectStep_some_true q minW y s acc hqy]
        have h2 := (ih h (y + 1) acc (by omega)).2 s
        rw [h2]
        have hrl : runLen q h y = runLen q h (y + 1) + 1 := runLen_of_pos q h y hyh hqy
        have he : y + 1 + runLen q h (y + 1) = y + runLen q h y := by omega
        rw [he]
      | false =>
        rw [detectStep_some_false q minW y s acc hqy]
        have hr0 : runLen q h y = 0 :=
          runLen_of_neg q h y (fun hc => by rw [hqy] at hc; exact absurd hc.2 (by simp))
        rw [hr0]
        have h1 := (ih h (y + 1)
          (if minW ≤ y - s then acc ++ [s + (y - s) / 2] else acc) (by omega)).1
        rw [h1]
        unfold emitIf
        by_cases hms : minW ≤ y - s <;> simp [hms]

/-- The raw `blackLines` array is exactly the midpoint emission of the
maximal qualifying runs, in top-to-bottom order. -/
theorem blackLines_eq_runs (q : ℕ → Bool) (minW h : ℕ) :
    blackLines q minW h = (runsFrom q h 0).filterMap (emitRun minW) := by
  unfold blackLines
  rw [List.range_eq_range']
  simpa using (scanRuns q minW h h 0 [] (by omega)).1

theorem runsFrom_bounds (q : ℕ → Bool) (h : ℕ) :
    ∀ n y, h - y ≤ n → ∀ p ∈ runsFrom q h y,
      y ≤ p.1 ∧ p.1 < h ∧ 0 < p.2 ∧ p.1 + p.2 ≤ h := by
  intro n
  induction n with
  | zero =>
    intro y hn p hp
    rw [runsFrom_stop q h y (by omega)] at hp
    cases hp
  | succ n ih =>
    intro y hn p hp
    rcases Nat.lt_or_ge y h with hy | hy
    · cases hqy : q y with
      | true =>
        rw [runsFrom_run q h y hy hqy] at hp
        rcases List.mem_cons.mp hp with rfl | htail
        · exact ⟨le_rfl, hy, runLen_pos q h y hy hqy,
            runLen_le q h (h - y) y le_rfl (by omega)⟩
        · have hpos := runLen_pos q h y hy hqy
          have := ih (y + runLen q h y) (by omega) p htail
          exact ⟨by omega, this.2.1, this.2.2.1, this.2.2.2⟩
      | false =>
        rw [runsFrom_skip q h y hy hqy] at hp
        have := ih (y + 1) (by omega) p hp
        exact ⟨by omega, this.2.1, this.2.2.1, this.2.2.2⟩
    · rw [runsFrom_stop q h y hy] at hp
      cases hp

/-- A maximal run of consecutive qualifying rows of length `≥ 1` inside
`[0, h)`: every row of the run qualifies, the row just above (if any) does
not, and the run ends at the image's last row or at a non-qualifying row. -/
def IsMaxRun (q : ℕ → Bool) (h s L : ℕ) : Prop :=
  0 < L ∧ s + L ≤ h ∧ (∀ i, s ≤ i → i < s + L → q i = true) ∧
    (s = 0 ∨ q (s - 1) = false) ∧ (s + L = h ∨ q (s + L) = false)

theorem runsFrom_maximal (q : ℕ → Bool) (h : ℕ) :
    ∀ n y, h - y ≤ n → (y = 0 ∨ q (y - 1) = false) →
      ∀ p ∈ runsFrom q h y, IsMaxRun q h p.1 p.2 := by
  intro n
  induction n with
  | zero =>
    intro y hn _ p hp
    rw [runsFrom_stop q h y (by omega)] at hp
    cases hp
  | succ n ih =>
    intro y hn hpre p hp
    rcases Nat.lt_or_ge y h with hy | hy
    · cases hqy : q y with
      | true =>
        rw [runsFrom_run q h y hy hqy] at hp
        have hpos := runLen_pos q h y hy hqy
        rcases List.mem_cons.mp hp with rfl | htail
        · refine ⟨hpos, runLen_le q h (h - y) y le_rfl (by omega),
            runLen_all_true q h (h - y) y le_rfl, hpre, ?_⟩
          rcases runLen_end q h (h - y) y le_rfl (by omega) with h1 | ⟨_, h2⟩
          · exact Or.inl h1
          · exact Or.inr h2
        · rcases runLen_end q h (h - y) y le_rfl (by omega) with h1 | ⟨h1, h2⟩
          · rw [h1, runsFrom_stop q h h le_rfl] at htail
            cases htail
          · rw [runsFrom_skip q h _ h1 h2] at htail
            exact ih (y + runLen q h y + 1) (by omega)
              (Or.inr (by simpa using h2)) p htail
      | false =>
        rw [runsFrom_skip q h y hy hqy] at hp
        exact ih (y + 1) (by omega) (Or.inr (by simpa using hqy)) p hp
    · rw [runsFrom_stop q h y hy] at hp
      cases hp

theorem runsFrom_complete (q : ℕ → Bool) (h : ℕ) :
    ∀ n y, h - y ≤ n → ∀ s L, IsMaxRun q h s L → y ≤ s →
      (s, L) ∈ runsFrom q h y := by
  intro n
  induction n with
  | zero =>
    intro y hn s L hrun hys
    obtain ⟨hL, hsL, _, _, _⟩ := hrun
    omega
  | succ n ih =>
    intro y hn s L hrun hys
    obtain ⟨hL, hsL, hall, hleft, hright⟩ := hrun
    have hy : y < h := by
      have := hall s le_rfl (by omega)
      omega
    cases hqy : q y with
    | true =>
      rw [runsFrom_run q h y hy hqy]
      rcases Nat.eq_or_lt_of_le hys with rfl | hlt
      · have : runLen q h y = L := runLen_eq_of_run q h L y hall hsL hright
        rw [this]
        exact List.mem_cons_self _ _
      · have hs0 : s ≠ 0 := by omega
        have hqs1 : q (s - 1) = false := by
          rcases hleft with h1 | h1
          · exact absurd h1 hs0
          · exact h1
        have hse : y + runLen q h y ≤ s := by
          by_contra hcon
          push_neg at hcon
          have : q (s - 1) = true :=
            runLen_all_true q h (h - y) y le_rfl (s - 1) (by omega) (by omega)
          rw [hqs1] at this
          cases this
        have hpos := runLen_pos q h y hy hqy
        exact List.mem_cons_of_mem _
          (ih (y + runLen q h y) (by omega) s L ⟨hL, hsL, hall, hleft, hright⟩ hse)
    | false =>
      have hsy : y < s := by
        rcases Nat.eq_or_lt_of_le hys with heq | hlt
        · exfalso
          have hqs := hall s le_rfl (by omega)
          rw [← heq, hqy] at hqs
          cases hqs
        · exact hlt
      rw [runsFrom_skip q h y hy hqy]
      exact ih (y + 1) (by omega) s L ⟨hL, hsL, hall, hleft, hright⟩ (by omega)

/-! ### The minimum-separation filter -/

/-- Recursive form of the minimum-separation filter with explicit
`lastLine` state. -/
def keepApart (last : ℤ) : List ℕ → List ℕ
  | [] => []
  | x :: xs => if (x : ℤ) - last > 50 then x :: keepApart (x : ℤ) xs else keepApart last xs

theorem filterClose_eq_keepApart :
    ∀ (l : List ℕ) (last : ℤ) (acc : List ℕ),
      (l.foldl filterStep (last, acc)).2 = acc ++ keepApart last l := by
  intro l
  induction l with
  | nil => intro last acc; simp [keepApart]
  | cons x xs ih =>
    intro last acc
    simp only [List.foldl_cons, keepApart]
    by_cases hx : (x : ℤ) - last > 50
    · have : filterStep (last, acc) x = ((x : ℤ), acc ++ [x]) := by
        simp [filterStep, hx]
      rw [this, ih]
      simp [hx]
    · have : filterStep (last, acc) x = (last, acc) := by
        simp [filterStep, hx]
      rw [this, ih]
      simp [hx]

theorem keepApart_subset :
    ∀ (l : List ℕ) (last : ℤ) (p : ℕ), p ∈ keepApart last l → p ∈ l := by
  intro l
  induction l with
  | nil => intro last p hp; cases hp
  | cons x xs ih =>
    intro last p hp
    unfold keepApart at hp
    by_cases hx : (x : ℤ) - last > 50
    · rw [if_pos hx] at hp
      rcases List.mem_cons.mp hp with rfl | h1
      · exact List.mem_cons_self _ _
      · exact List.mem_cons_of_mem _ (ih _ p h1)
    · rw [if_neg hx] at hp
      exact List.mem_cons_of_mem _ (ih _ p hp)

theorem keepApart_gt :
    ∀ (l : List ℕ) (last : ℤ) (p : ℕ), p ∈ keepApart last l → last + 50 < (p : ℤ) := by
  intro l
  induction l with
  | nil => intro last p hp; cases hp
  | cons x xs ih =>
    intro last p hp
    unfold keepApart at hp
    by_cases hx : (x : ℤ) - last > 50
    · rw [if_pos hx] at hp
      rcases List.mem_cons.mp hp with rfl | h1
      · omega
      · have := ih (x : ℤ) p h1
        omega
    · rw [if_neg hx] at hp
      exact ih last p hp

theorem keepApart_chain :
    ∀ (l : List ℕ) (last : ℤ),
      List.Chain' (fun a b : ℕ => a + 50 < b) (keepApart last l) := by
  intro l
  induction l with
  | nil => intro last; simp [keepApart]
  | cons x xs ih =>
    intro last
    unfold keepApart
    by_cases hx : (x : ℤ) - last > 50
    · rw [if_pos hx]
      rw [List.chain'_cons']
      refine ⟨?_, ih (x : ℤ)⟩
      intro y hy
      have hmem : y ∈ keepApart (x : ℤ) xs := List.mem_of_mem_head? hy
      have := keepApart_gt xs (x : ℤ) y hmem
      omega
    · rw [if_neg hx]
      exact ih last

theorem keepApart_pairwise (l : List ℕ) (last : ℤ) :
    List.Pairwise (fun a b : ℕ => a + 50 < b) (keepApart last l) := by
  haveI : IsTrans ℕ (fun a b : ℕ => a + 50 < b) := ⟨fun a b c h1 h2 => by omega⟩
  exact List.chain'_iff_pairwise.mp (keepApart_chain l last)

/-! ## Sharpener (`sharpenImage`, src/unnamed/part_000 lines 8–115)

The 2px canvas blur of stage 2 (`ctx.filter = 'blur(2px)'`, lines 62–65) is
platform-defined; it is modelled as an explicit `blur : Image → Image`
parameter, mirroring the spec's "exact kernel is an implementation
choice". -/

/-- `Math.max(0, Math.min(255, z))` on an integer. -/
def clamp255 (z : ℤ) : ℕ := (max 0 (min 255 z)).toNat

/-- JavaScript `Math.round`: round half toward positive infinity. -/
def jsRound (x : ℚ) : ℤ := ⌊x + 1 / 2⌋

/-- Rounding performed by an assignment to a `Uint8ClampedArray` entry:
round to nearest, ties to even. -/
def roundHalfEven (x : ℚ) : ℤ :=
  if x - ⌊x⌋ < 1 / 2 then ⌊x⌋
  else if 1 / 2 < x - ⌊x⌋ then ⌊x⌋ + 1
  else if 2 ∣ ⌊x⌋ then ⌊x⌋ else ⌊x⌋ + 1

/-- Assignment of `Math.max(0, Math.min(255, x))` to a `Uint8ClampedArray`
entry (clamp to `[0, 255]`, then round half to even). -/
def uint8Clamped (x : ℚ) : ℕ := (roundHalfEven (max 0 (min 255 x))).toNat

/-- Global mean brightness (lines 30–37): the sum of per-pixel
`(r + g + b) / 3` divided by `width * height`. -/
def avgBrightness (img : Image) : ℚ :=
  (((allCoords img).map fun c => brightnessQ (img.pix c.1 c.2)).sum) /
    ((img.width : ℚ) * (img.height : ℚ))

/-- Stage 1 per-channel contrast formula (line 47):
`Math.max(0, Math.min(255, Math.round((val - avg) * 1.2 + avg)))`. -/
def contrastChannel (m : ℚ) (v : ℕ) : ℕ :=
  clamp255 (jsRound (((v : ℚ) - m) * (6 / 5) + m))

/-- Stage 1, contrast enhancement (lines 25–51): applied to R, G, B; alpha
untouched. -/
def contrastStage (img : Image) : Image :=
  { width := img.width
    height := img.height
    pix := fun x y =>
      let p := img.pix x y
      ⟨contrastChannel (avgBrightness img) p.r, contrastChannel (avgBrightness img) p.g,
        contrastChannel (avgBrightness img) p.b, p.a⟩ }

/-- Stage 2 per-channel unsharp mask (lines 79–88): with
`diff = sharp - blurred`, if `|diff| > 5` assign
`Math.max(0, Math.min(255, sharp + 2.5 * diff))`, else leave unchanged. -/
def unsharpChannel (s bl : ℕ) : ℕ :=
  let diff : ℤ := (s : ℤ) - (bl : ℤ)
  if 5 < diff.natAbs then uint8Clamped ((s : ℚ) + (5 / 2) * (diff : ℚ)) else s

/-- Stage 2, unsharp mask (lines 53–91): reads stage 1's output and its
blurred copy; alpha untouched. -/
def unsharpStage (blur : Image → Image) (img : Image) : Image :=
  { width := img.width
    height := img.height
    pix := fun x y =>
      let sp := img.pix x y
      let bp := (blur img).pix x y
      ⟨unsharpChannel sp.r bp.r, unsharpChannel sp.g bp.g, unsharpChannel sp.b bp.b, sp.a⟩ }

/-- Stage 3 per-channel dark boost (lines 105–108): `Math.floor(v * 0.8)`.
For `v ≤ 255` the IEEE product `v * 0.8` floors identically to the exact
rational `v * 4/5`. -/
def darkChannel (v : ℕ) : ℕ := (⌊(v : ℚ) * (4 / 5)⌋).toNat

/-- Stage 3, dark-text enhancement (lines 93–112): darken every pixel with
`r < 150 && g < 150 && b < 150`; other pixels and alpha untouched. -/
def darkBoostStage (img : Image) : Image :=
  { width := img.width
    height := img.height
    pix := fun x y =>
      let p := img.pix x y
      if p.r < 150 ∧ p.g < 150 ∧ p.b < 150 then
        ⟨darkChannel p.r, darkChannel p.g, darkChannel p.b, p.a⟩
      else p }

/-- `sharpenImage` (lines 8–115): the three stages in sequence, each
reading the previous stage's materialized output. -/
def sharpenImage (blur : Image → Image) (img : Image) : Image :=
  darkBoostStage (unsharpStage blur (contrastStage img))

/-! ## Slicer (`sliceImage`, src/unnamed/part_000 lines 271–364) -/

/-- The options record of `sliceImage` (lines 271–275) with its default
values; `autoDetectSplits` is accepted but never read by the function
body. -/
structure SliceOptions where
  autoDetectSplits : Bool := true
  splitSensitivity : ℚ := 50
  sharpenImage : Bool := true

/-- Drawing the horizontal band `[startY, endY)` of `img` onto a fresh
canvas of height `endY - startY` (lines 330–341; with `startY = 0` and
`endY = height` this is the full-image draw of lines 293–297). -/
def cropBand (img : Image) (startY endY : ℕ) : Image :=
  { width := img.width
    height := endY - startY
    pix := fun x y => img.pix x (y + startY) }

/-- Consecutive pairs of a boundary list: the loop
`for i in 0..len-2 => (allSplitPoints[i], allSplitPoints[i+1])`
of lines 322–324. -/
def consecPairs : List ℕ → List (ℕ × ℕ)
  | a :: b :: rest => (a, b) :: consecPairs (b :: rest)
  | _ => []

/-- The `[startY, endY)` regions that `sliceImage` extracts: the whole
image when no split point is found (lines 291–316), else the consecutive
pairs of `allSplitPoints = [0, ...splitPoints, height]` (lines 318–324).
The detector call uses `threshold = 120 - splitSensitivity`,
`minLineWidth = 2`, `minLinePercent = 60` (lines 287–288). -/
def sliceRegions (img : Image) (opts : SliceOptions) : List (ℕ × ℕ) :=
  let splitPoints := detectSplitPoints img (120 - opts.splitSensitivity) 2 60
  if splitPoints.isEmpty then [(0, img.height)]
  else consecPairs (0 :: (splitPoints ++ [img.height]))

/-- One output slice: the encoded image together with the recorded
`width`/`height` fields (lines 308–312 and 352–356). -/
structure Slice where
  image : Image
  width : ℕ
  height : ℕ

/-- Packaging a processed canvas as an output slice. -/
def mkSlice (c : Image) : Slice := ⟨c, c.width, c.height⟩

/-- Per-region processing (lines 299–312 and 343–356): draw the band,
optionally sharpen, always trim. -/
def processRegion (blur : Image → Image) (applySharpen : Bool) (img : Image)
    (r : ℕ × ℕ) : Image :=
  let canvas := cropBand img r.1 r.2
  let processed := if applySharpen then sharpenImage blur canvas else canvas
  trimEmptySpace processed

/-- `sliceImage` (lines 271–364): detect split points on the full image,
derive the regions, process each region in top-to-bottom order. -/
def sliceImage (blur : Image → Image) (img : Image) (opts : SliceOptions) : List Slice :=
  (sliceRegions img opts).map fun r => mkSlice (processRegion blur opts.sharpenImage img r)

/-- The same pipeline with the line-detector parameters left abstract,
used to state which parameters `sliceImage` fixes. -/
def sliceImageWithParams (blur : Image → Image) (img : Image) (threshold : ℚ)
    (minLineWidth : ℕ) (minLinePercent : ℚ) (applySharpen : Bool) : List Slice :=
  let splitPoints := detectSplitPoints img threshold minLineWidth minLinePercent
  let regions :=
    if splitPoints.isEmpty then [(0, img.height)]
    else consecPairs (0 :: (splitPoints ++ [img.height]))
  regions.map fun r => mkSlice (processRegion blur applySharpen img r)

/-! ## Failure model

Every pixel stage of the source starts with `ctx.getImageData(0, 0, w, h)`,
which raises a DOM `IndexSizeError` exactly when the requested rectangle is
empty, i.e. when the canvas has zero width or zero height; no other step of
the pipeline can raise.  The monadic variants below make those implicit
checks explicit. -/

/-- The only error kind of the core: an invalid (zero-dimension) image. -/
inductive SliceError where
  | invalidImage
deriving DecidableEq, Repr

/-- `getImageData(0, 0, w, h)`: fails with `IndexSizeError` iff `w = 0` or
`h = 0`. -/
def getImageDataCheck (w h : ℕ) : Except SliceError Unit :=
  if w = 0 ∨ h = 0 then Except.error SliceError.invalidImage else Except.ok ()

/-- `detectSplitPoints` with its initial `getImageData` made explicit
(lines 127–137 precede any row scanning). -/
def detectSplitPointsE (img : Image) (threshold : ℚ) (minLineWidth : ℕ)
    (minLinePercent : ℚ) : Except SliceError (List ℕ) := do
  _ ← getImageDataCheck img.width img.height
  pure (detectSplitPoints img threshold minLineWidth minLinePercent)

/-- `sharpenImage` with its `getImageData` calls made explicit (all are on
canvases of the input's dimensions). -/
def sharpenImageE (blur : Image → Image) (c : Image) : Except SliceError Image := do
  _ ← getImageDataCheck c.width c.height
  pure (sharpenImage blur c)

/-- `trimEmptySpace` with its `getImageData` call (line 217) made
explicit. -/
def trimEmptySpaceE (c : Image) : Except SliceError Image := do
  _ ← getImageDataCheck c.width c.height
  pure (trimEmptySpace c)

/-- Per-region processing in the failure model. -/
def processRegionE (blur : Image → Image) (applySharpen : Bool) (img : Image)
    (r : ℕ × ℕ) : Except SliceError Slice := do
  let canvas := cropBand img r.1 r.2
  let processed ← if applySharpen then sharpenImageE blur canvas else pure canvas
  let trimmed ← trimEmptySpaceE processed
  pure (mkSlice trimmed)

/-- `sliceImage` in the failure model: the detector runs first, then each
region is processed in order; the first failure aborts. -/
def sliceImageE (blur : Image → Image) (img : Image) (opts : SliceOptions) :
    Except SliceError (List Slice) := do
  let splitPoints ← detectSplitPointsE img (120 - opts.splitSensitivity) 2 60
  let regions :=
    if splitPoints.isEmpty then [(0, img.height)]
    else consecPairs (0 :: (splitPoints ++ [img.height]))
  regions.mapM (processRegionE blur opts.sharpenImage img)

/-! ## Derived facts about the detector -/

theorem filterClose_eq (l : List ℕ) : filterClose l = keepApart (-50) l := by
  unfold filterClose
  rw [filterClose_eq_keepApart]
  simp

/-- Every returned split point comes from the raw `blackLines` array. -/
theorem mem_detect_raw (img : Image) (threshold : ℚ) (minW : ℕ) (minP : ℚ) (p : ℕ)
    (hp : p ∈ detectSplitPoints img threshold minW minP) :
    p ∈ blackLines (isBlackLine img threshold minP) minW img.height := by
  unfold detectSplitPoints at hp
  rw [filterClose_eq] at hp
  exact keepApart_subset _ _ p hp

/-- Every returned split point is positive (the filter starts from
`lastLine = -50` and requires a gap of more than 50). -/
theorem mem_detect_pos (img : Image) (threshold : ℚ) (minW : ℕ) (minP : ℚ) (p : ℕ)
    (hp : p ∈ detectSplitPoints img threshold minW minP) : 0 < p := by
  unfold detectSplitPoints at hp
  rw [filterClose_eq] at hp
  have := keepApart_gt _ _ p hp
  omega

/-- With `minLineWidth ≥ 2`, every raw split point lies strictly inside
`[1, height)`. -/
theorem mem_blackLines_bounds (q : ℕ → Bool) (minW h : ℕ) (h2 : 2 ≤ minW) (p : ℕ)
    (hp : p ∈ blackLines q minW h) : 1 ≤ p ∧ p < h := by
  rw [blackLines_eq_runs] at hp
  rcases List.mem_filterMap.mp hp with ⟨r, hr, he⟩
  have hb := runsFrom_bounds q h h 0 (by omega) r hr
  unfold emitRun at he
  by_cases hm : minW ≤ r.2
  · rw [if_pos hm] at he
    have hp2 : p = r.1 + r.2 / 2 := by
      injection he with he
      omega
    omega
  · rw [if_neg hm] at he
    cases he

theorem mem_detect_bounds (img : Image) (threshold : ℚ) (minP : ℚ) (p : ℕ)
    (hp : p ∈ detectSplitPoints img threshold 2 minP) :
    1 ≤ p ∧ p < img.height :=
  mem_blackLines_bounds _ 2 img.height le_rfl p (mem_detect_raw img threshold 2 minP p hp)

theorem detect_gap_chain (img : Image) (threshold : ℚ) (minW : ℕ) (minP : ℚ) :
    List.Chain' (fun a b : ℕ => a + 50 < b) (detectSplitPoints img threshold minW minP) := by
  unfold detectSplitPoints
  rw [filterClose_eq]
  exact keepApart_chain _ _

theorem detect_sorted (img : Image) (threshold : ℚ) (minW : ℕ) (minP : ℚ) :
    List.Pairwise (· < ·) (detectSplitPoints img threshold minW minP) := by
  unfold detectSplitPoints
  rw [filterClose_eq]
  exact (keepApart_pairwise _ _).imp (by omega)

/-! ## Region lemmas -/

theorem consecPairs_chain :
    ∀ l : List ℕ, List.Chain' (fun r1 r2 : ℕ × ℕ => r1.2 = r2.1) (consecPairs l) := by
  intro l
  induction l with
  | nil => simp [consecPairs]
  | cons a t ih =>
    cases t with
    | nil => simp [consecPairs]
    | cons b rest =>
      rw [show consecPairs (a :: b :: rest) = (a, b) :: consecPairs (b :: rest) from rfl]
      rw [List.chain'_cons']
      refine ⟨?_, ih⟩
      intro r hr
      have hmem := List.mem_of_mem_head? hr
      cases rest with
      | nil => simp [consecPairs] at hmem
      | cons c rest2 =>
        rw [show consecPairs (b :: c :: rest2) = (b, c) :: consecPairs (c :: rest2) from rfl]
          at hr
        simp only [List.head?_cons, Option.mem_def, Option.some.injEq] at hr
        rw [← hr]

theorem consecPairs_lt :
    ∀ l : List ℕ, List.Chain' (· < ·) l → ∀ r ∈ consecPairs l, r.1 < r.2 := by
  intro l
  induction l with
  | nil => intro _ r hr; simp [consecPairs] at hr
  | cons a t ih =>
    cases t with
    | nil => intro _ r hr; simp [consecPairs] at hr
    | cons b rest =>
      intro hch r hr
      rw [show consecPairs (a :: b :: rest) = (a, b) :: consecPairs (b :: rest) from rfl]
        at hr
      rcases List.mem_cons.mp hr with rfl | hr2
      · exact (List.chain'_cons.mp hch).1
      · exact ih (List.chain'_cons.mp hch).2 r hr2

theorem consecPairs_last_snd :
    ∀ (l : List ℕ) (a b : ℕ),
      ((consecPairs (a :: b :: l)).getLast?).map Prod.snd = (b :: l).getLast? := by
  intro l
  induction l with
  | nil => intro a b; rfl
  | cons c rest ih =>
    intro a b
    rw [show consecPairs (a :: b :: c :: rest) = (a, b) :: consecPairs (b :: c :: rest)
      from rfl]
    rw [show consecPairs (b :: c :: rest) = (b, c) :: consecPairs (c :: rest) from rfl]
    rw [List.getLast?_cons_cons]
    rw [show (b, c) :: consecPairs (c :: rest) = consecPairs (b :: c :: rest) from rfl]
    rw [ih b c]
    rw [List.getLast?_cons_cons]

/-- The partition property claimed of the Slicer's regions over `[0, h)`:
nonempty, first region starts at 0, last region ends at `h`, each region
starts where the previous one ends, and every region is nonempty (so the
regions are in ascending order with no gaps and no overlaps). -/
def RegionPartition (rs : List (ℕ × ℕ)) (h : ℕ) : Prop :=
  rs ≠ [] ∧ (∀ r, rs.head? = some r → r.1 = 0) ∧
    (∀ r, rs.getLast? = some r → r.2 = h) ∧
    List.Chain' (fun r1 r2 : ℕ × ℕ => r1.2 = r2.1) rs ∧
    ∀ r ∈ rs, r.1 < r.2

/-- The boundary list `[0, p1, …, pn, height]` built by `sliceImage` is
strictly ascending. -/
theorem boundary_chain (img : Image) (opts : SliceOptions) (p : ℕ) (rest : List ℕ)
    (hpe : detectSplitPoints img (120 - opts.splitSensitivity) 2 60 = p :: rest) :
    List.Chain' (· < ·) (0 :: ((p :: rest) ++ [img.height])) := by
  have hchain : List.Chain' (· < ·) (p :: rest) := by
    have := detect_gap_chain img (120 - opts.splitSensitivity) 2 60
    rw [hpe] at this
    exact this.imp (by omega)
  have hb : ∀ x ∈ (p :: rest), 1 ≤ x ∧ x < img.height := by
    intro x hx
    apply mem_detect_bounds img (120 - opts.splitSensitivity) 60 x
    rw [hpe]
    exact hx
  rw [List.chain'_cons']
  constructor
  · intro y hy
    simp only [List.cons_append, List.head?_cons, Option.mem_def, Option.some.injEq] at hy
    have := (hb p (List.mem_cons_self p rest)).1
    omega
  · rw [List.chain'_append]
    refine ⟨hchain, by simp, ?_⟩
    intro x hx y hy
    simp only [List.head?_cons, Option.mem_def, Option.some.injEq] at hy
    have hxm := List.mem_of_mem_getLast? hx
    have := (hb x hxm).2
    omega

/-- The regions used by `sliceImage` partition `[0, height)` exactly. -/
theorem sliceRegions_partition (img : Image) (opts : SliceOptions)
    (hh : 0 < img.height) : RegionPartition (sliceRegions img opts) img.height := by
  unfold sliceRegions
  by_cases hempty : (detectSplitPoints img (120 - opts.splitSensitivity) 2 60).isEmpty
  · rw [if_pos hempty]
    refine ⟨by simp, ?_, ?_, by simp, ?_⟩
    · intro r hr
      simp only [List.head?_cons, Option.some.injEq] at hr
      rw [← hr]
    · intro r hr
      simp only [List.getLast?_singleton, Option.some.injEq] at hr
      rw [← hr]
    · intro r hr
      simp only [List.mem_singleton] at hr
      rw [hr]
      exact hh
  · rw [if_neg hempty]
    obtain ⟨p, rest, hpe⟩ :
        ∃ p rest, detectSplitPoints img (120 - opts.splitSensitivity) 2 60 = p :: rest := by
      cases hpl : detectSplitPoints img (120 - opts.splitSensitivity) 2 60 with
      | nil => rw [hpl] at hempty; simp at hempty
      | cons p rest => exact ⟨p, rest, rfl⟩
    rw [hpe]
    have hbc := boundary_chain img opts p rest hpe
    have hcp : consecPairs (0 :: ((p :: rest) ++ [img.height]))
        = (0, p) :: consecPairs ((p :: rest) ++ [img.height]) := rfl
    refine ⟨?_, ?_, ?_, consecPairs_chain _, consecPairs_lt _ hbc⟩
    · rw [hcp]; simp
    · intro r hr
      rw [hcp] at hr
      simp only [List.head?_cons, Option.some.injEq] at hr
      rw [← hr]
    · intro r hr
      have hsnd : ((consecPairs (0 :: ((p :: rest) ++ [img.height]))).getLast?).map Prod.snd
          = some img.height := by
        have h1 : (0 : ℕ) :: ((p :: rest) ++ [img.height])
            = 0 :: p :: (rest ++ [img.height]) := by simp
        rw [h1, consecPairs_last_snd]
        have h2 : p :: (rest ++ [img.height]) = (p :: rest) ++ [img.height] := by simp
        rw [h2, List.getLast?_concat]
      rw [hr] at hsnd
      simp at hsnd
      exact hsnd

/-! ## Concrete test images -/

/-- A 1×1 opaque white image. -/
def imgW1 : Image := ⟨1, 1, fun _ _ => ⟨255, 255, 255, 255⟩⟩

/-- A 1×1 opaque black image. -/
def imgB1 : Image := ⟨1, 1, fun _ _ => ⟨0, 0, 0, 255⟩⟩

/-- The default options of `sliceImage`. -/
def optsDefault : SliceOptions := {}

theorem imgB1_row0_black : isBlackLine imgB1 50 70 0 = true := by
  have hb : brightnessQ (imgB1.pix 0 0) < 50 := by
    show (((0 : ℕ) : ℚ) + ((0 : ℕ) : ℚ) + ((0 : ℕ) : ℚ)) / 3 < 50
    norm_num
  have hcount : blackPixelCount imgB1 50 0 = 1 := by
    unfold blackPixelCount
    rw [show List.range imgB1.width = [0] from rfl]
    simp [hb]
  unfold isBlackLine
  rw [hcount]
  rw [show ((imgB1.width : ℚ)) = 1 from by norm_num [imgB1]]
  norm_num
  decide

theorem imgB1_blackLines : blackLines (isBlackLine imgB1 50 70) 1 imgB1.height = [0] := by
  unfold blackLines
  rw [show List.range imgB1.height = [0] from rfl]
  simp only [List.foldl_cons, List.foldl_nil]
  rw [detectStep_none_true _ _ _ _ imgB1_row0_black]
  decide

theorem imgB1_detect : detectSplitPoints imgB1 50 1 70 = [] := by
  unfold detectSplitPoints
  rw [imgB1_blackLines, filterClose_eq]
  unfold keepApart
  norm_num
  rfl

/-! ## Claims -/

/-- C1: for every input image with positive height and every configuration,
the ordered sequence of `[startY, endY)` regions from which `sliceImage`
extracts its output slices partitions `[0, height)` exactly: the first
region starts at 0, the last ends at `height`, each region's start equals
the previous region's end, regions are in top-to-bottom order with no gaps
and no overlaps; and the slices are exactly the per-region pipeline mapped
over those regions. -/
theorem claimC1_regions_partition (img : Image) (opts : SliceOptions)
    (hh : 0 < img.height) :
    RegionPartition (sliceRegions img opts) img.height ∧
      ∀ blur, sliceImage blur img opts
        = (sliceRegions img opts).map
            (fun r => mkSlice (processRegion blur opts.sharpenImage img r)) :=
  ⟨sliceRegions_partition img opts hh, fun _ => rfl⟩

theorem claimC1_witness :
    0 < imgW1.height ∧
      (RegionPartition (sliceRegions imgW1 optsDefault) imgW1.height ∧
        ∀ blur, sliceImage blur imgW1 optsDefault
          = (sliceRegions imgW1 optsDefault).map
              (fun r => mkSlice (processRegion blur optsDefault.sharpenImage imgW1 r))) :=
  ⟨by decide, claimC1_regions_partition imgW1 optsDefault (by decide)⟩

/-- C2 counterexample: on a 1×1 all-black image with `minLineWidth = 1`,
the first (and only) raw split point is `0`, yet the filter drops it
(`0 - (-50) = 50` is not `> 50`), so "the first raw split point is always
kept" is false. -/
theorem claimC2_counterexample :
    (blackLines (isBlackLine imgB1 50 70) 1 imgB1.height).head? = some 0 ∧
      detectSplitPoints imgB1 50 1 70 = [] := by
  constructor
  · rw [imgB1_blackLines]; rfl
  · exact imgB1_detect

/-- C2 (amended): for every image and parameters, the returned sequence is
strictly ascending and consecutive points differ by more than 50; the
first raw split point is kept by the minimum-separation filter iff it is
positive (a first raw point equal to 0 is dropped). -/
theorem claimC2_detect_separation (img : Image) (threshold : ℚ) (minW : ℕ) (minP : ℚ) :
    List.Pairwise (· < ·) (detectSplitPoints img threshold minW minP) ∧
    List.Chain' (fun a b : ℕ => a + 50 < b) (detectSplitPoints img threshold minW minP) ∧
    ∀ p, (blackLines (isBlackLine img threshold minP) minW img.height).head? = some p →
      (p ∈ detectSplitPoints img threshold minW minP ↔ 0 < p) := by
  refine ⟨detect_sorted img threshold minW minP, detect_gap_chain img threshold minW minP, ?_⟩
  intro p hp
  constructor
  · intro hmem
    exact mem_detect_pos img threshold minW minP p hmem
  · intro hpos
    obtain ⟨xs, hxs⟩ :
        ∃ xs, blackLines (isBlackLine img threshold minP) minW img.height = p :: xs := by
      cases hbl : blackLines (isBlackLine img threshold minP) minW img.height with
      | nil => rw [hbl] at hp; simp at hp
      | cons a xs =>
        rw [hbl] at hp
        simp only [List.head?_cons, Option.some.injEq] at hp
        exact ⟨xs, by rw [hp]⟩
    unfold detectSplitPoints
    rw [filterClose_eq, hxs]
    unfold keepApart
    rw [if_pos (by omega : (p : ℤ) - (-50) > 50)]
    exact List.mem_cons_self _ _

theorem claimC2_witness :
    (0 ∈ detectSplitPoints imgB1 50 1 70 ↔ 0 < 0) :=
  (claimC2_detect_separation imgB1 50 1 70).2.2 0 (by rw [imgB1_blackLines]; rfl)

/-- C3: a row qualifies iff the count of its pixels with brightness
`(r+g+b)/3` strictly below the threshold, divided by the width and times
100, strictly exceeds `minLinePercent`; and the raw split points are
exactly `floor(start + len / 2)` for the maximal runs of consecutive
qualifying rows of length at least `minLineWidth`, in order, including a
run still open at the last row (closed with the same length check):
`runsFrom` lists precisely the maximal runs (soundness and completeness
below). -/
theorem claimC3_raw_runs (img : Image) (threshold minP : ℚ) (minW : ℕ)
    (hw : 0 < img.width) :
    (∀ y, isBlackLine img threshold minP y = true ↔
        ((blackPixelCount img threshold y : ℚ) / (img.width : ℚ)) * 100 > minP) ∧
    blackLines (isBlackLine img threshold minP) minW img.height
      = (runsFrom (isBlackLine img threshold minP) img.height 0).filterMap (emitRun minW) ∧
    (∀ r ∈ runsFrom (isBlackLine img threshold minP) img.height 0,
        IsMaxRun (isBlackLine img threshold minP) img.height r.1 r.2) ∧
    (∀ s L, IsMaxRun (isBlackLine img threshold minP) img.height s L →
        (s, L) ∈ runsFrom (isBlackLine img threshold minP) img.height 0) := by
  refine ⟨?_, blackLines_eq_runs _ _ _, ?_, ?_⟩
  · intro y
    unfold isBlackLine
    simp [Nat.pos_iff_ne_zero.mp hw]
  · exact runsFrom_maximal _ img.height img.height 0 (by omega) (Or.inl rfl)
  · intro s L hrun
    exact runsFrom_complete _ img.height img.height 0 (by omega) s L hrun (by omega)

theorem claimC3_witness :
    blackLines (isBlackLine imgB1 50 70) 1 imgB1.height
      = (runsFrom (isBlackLine imgB1 50 70) imgB1.height 0).filterMap (emitRun 1) :=
  (claimC3_raw_runs imgB1 50 70 1 (by decide)).2.1

/-- C5: for every value of the sensitivity knob (and the other options),
`sliceImage` runs the line detector on the full input image with
`threshold = 120 - splitSensitivity`, `minLineWidth = 2` and
`minLinePercent = 60`. -/
theorem claimC5_detector_params (blur : Image → Image) (img : Image)
    (opts : SliceOptions) :
    sliceImage blur img opts
      = sliceImageWithParams blur img (120 - opts.splitSensitivity) 2 60
          opts.sharpenImage := rfl

/-! ## Trimmer facts -/

/-- An image has content iff some in-range pixel passes the content test. -/
def HasContent (img : Image) : Prop :=
  ∃ x y, x < img.width ∧ y < img.height ∧ isContent (img.pix x y) = true

theorem contentBounds_covers (img : Image) (x y : ℕ) (hx : x < img.width)
    (hy : y < img.height) (hc : isContent (img.pix x y) = true) :
    (contentBounds img).top ≤ y ∧ y ≤ (contentBounds img).bottom ∧
      (contentBounds img).left ≤ x ∧ x ≤ (contentBounds img).right := by
  have := foldBounds_covers img (allCoords img) ⟨img.height, 0, img.width, 0⟩ (x, y)
    ((mem_allCoords img (x, y)).mpr ⟨hx, hy⟩) hc
  exact this

theorem contentBounds_of_no_content (img : Image) (h : ¬ HasContent img) :
    contentBounds img = ⟨img.height, 0, img.width, 0⟩ := by
  unfold contentBounds
  apply foldBounds_const
  intro c hc
  rcases (mem_allCoords img c).mp hc with ⟨hx, hy⟩
  rcases Bool.eq_false_or_eq_true (isContent (img.pix c.1 c.2)) with ht | hf
  · exact absurd ⟨c.1, c.2, hx, hy, ht⟩ h
  · exact hf

theorem contentBounds_attained (img : Image) (h : HasContent img) :
    (∃ x y, x < img.width ∧ y < img.height ∧ isContent (img.pix x y) = true ∧
        y = (contentBounds img).top) ∧
    (∃ x y, x < img.width ∧ y < img.height ∧ isContent (img.pix x y) = true ∧
        y = (contentBounds img).bottom) ∧
    (∃ x y, x < img.width ∧ y < img.height ∧ isContent (img.pix x y) = true ∧
        x = (contentBounds img).left) ∧
    (∃ x y, x < img.width ∧ y < img.height ∧ isContent (img.pix x y) = true ∧
        x = (contentBounds img).right) := by
  obtain ⟨x0, y0, hx0, hy0, hc0⟩ := h
  have hcov := contentBounds_covers img x0 y0 hx0 hy0 hc0
  have hatt := foldBounds_attained img (allCoords img) ⟨img.height, 0, img.width, 0⟩
  refine ⟨?_, ?_, ?_, ?_⟩
  · rcases hatt.1 with h1 | ⟨c, hcm, hcc, hce⟩
    · exfalso
      have h1' : (contentBounds img).top = img.height := h1
      have hle : (contentBounds img).top ≤ y0 := hcov.1
      omega
    · rcases (mem_allCoords img c).mp hcm with ⟨hcx, hcy⟩
      have hce' : (contentBounds img).top = c.2 := hce
      exact ⟨c.1, c.2, hcx, hcy, hcc, hce'.symm⟩
  · rcases hatt.2.1 with h1 | ⟨c, hcm, hcc, hce⟩
    · refine ⟨x0, y0, hx0, hy0, hc0, ?_⟩
      have h1' : (contentBounds img).bottom = 0 := h1
      have hle : y0 ≤ (contentBounds img).bottom := hcov.2.1
      omega
    · rcases (mem_allCoords img c).mp hcm with ⟨hcx, hcy⟩
      have hce' : (contentBounds img).bottom = c.2 := hce
      exact ⟨c.1, c.2, hcx, hcy, hcc, hce'.symm⟩
  · rcases hatt.2.2.1 with h1 | ⟨c, hcm, hcc, hce⟩
    · exfalso
      have h1' : (contentBounds img).left = img.width := h1
      have hle : (contentBounds img).left ≤ x0 := hcov.2.2.1
      omega
    · rcases (mem_allCoords img c).mp hcm with ⟨hcx, hcy⟩
      have hce' : (contentBounds img).left = c.1 := hce
      exact ⟨c.1, c.2, hcx, hcy, hcc, hce'.symm⟩
  · rcases hatt.2.2.2 with h1 | ⟨c, hcm, hcc, hce⟩
    · refine ⟨x0, y0, hx0, hy0, hc0, ?_⟩
      have h1' : (contentBounds img).right = 0 := h1
      have hle : x0 ≤ (contentBounds img).right := hcov.2.2.2
      omega
    · rcases (mem_allCoords img c).mp hcm with ⟨hcx, hcy⟩
      have hce' : (contentBounds img).right = c.1 := hce
      exact ⟨c.1, c.2, hcx, hcy, hcc, hce'.symm⟩

theorem contentBounds_bottom_lt (img : Image) (hh : 0 < img.height) :
    (contentBounds img).bottom < img.height := by
  have hatt := foldBounds_attained img (allCoords img) ⟨img.height, 0, img.width, 0⟩
  rcases hatt.2.1 with h1 | ⟨c, hcm, _, hce⟩
  · have h1' : (contentBounds img).bottom = 0 := h1
    omega
  · rcases (mem_allCoords img c).mp hcm with ⟨_, hcy⟩
    have hce' : (contentBounds img).bottom = c.2 := hce
    omega

theorem contentBounds_right_lt (img : Image) (hw : 0 < img.width) :
    (contentBounds img).right < img.width := by
  have hatt := foldBounds_attained img (allCoords img) ⟨img.height, 0, img.width, 0⟩
  rcases hatt.2.2.2 with h1 | ⟨c, hcm, _, hce⟩
  · have h1' : (contentBounds img).right = 0 := h1
    omega
  · rcases (mem_allCoords img c).mp hcm with ⟨hcx, _⟩
    have hce' : (contentBounds img).right = c.1 := hce
    omega

theorem trimEmptySpace_of_degenerate (img : Image)
    (h : (contentBounds img).bottom ≤ (contentBounds img).top ∨
      (contentBounds img).right ≤ (contentBounds img).left) :
    trimEmptySpace img = img := by
  unfold trimEmptySpace
  rw [if_pos h]

theorem trimEmptySpace_of_crop (img : Image)
    (h1 : (contentBounds img).top < (contentBounds img).bottom)
    (h2 : (contentBounds img).left < (contentBounds img).right) :
    trimEmptySpace img =
      { width := (contentBounds img).right - (contentBounds img).left + 1
        height := (contentBounds img).bottom - (contentBounds img).top + 1
        pix := fun x y =>
          img.pix (x + (contentBounds img).left) (y + (contentBounds img).top) } := by
  unfold trimEmptySpace
  rw [if_neg (by omega)]

theorem Image.Eqv.refl (i : Image) : i.Eqv i := ⟨rfl, rfl, fun _ _ _ _ => rfl⟩

/-- C4: `trimEmptySpace` counts a pixel as content iff
`r < 250 ∨ g < 250 ∨ b < 250 ∨ a > 0`; the scanned bounds are the minimal
and maximal content coordinates (they cover every content pixel and are
attained by content pixels); if `top ≥ bottom` or `left ≥ right` the input
is returned unchanged; otherwise the result is exactly the inclusive
rectangle `[left, right] × [top, bottom]`, of dimensions
`(right - left + 1) × (bottom - top + 1)`. -/
theorem claimC4_trim_spec (img : Image) :
    (∀ p : RGBA, isContent p = true ↔ (p.r < 250 ∨ p.g < 250 ∨ p.b < 250 ∨ 0 < p.a)) ∧
    (∀ x y, x < img.width → y < img.height → isContent (img.pix x y) = true →
        (contentBounds img).top ≤ y ∧ y ≤ (contentBounds img).bottom ∧
          (contentBounds img).left ≤ x ∧ x ≤ (contentBounds img).right) ∧
    (HasContent img →
      (∃ x y, x < img.width ∧ y < img.height ∧ isContent (img.pix x y) = true ∧
          y = (contentBounds img).top) ∧
      (∃ x y, x < img.width ∧ y < img.height ∧ isContent (img.pix x y) = true ∧
          y = (contentBounds img).bottom) ∧
      (∃ x y, x < img.width ∧ y < img.height ∧ isContent (img.pix x y) = true ∧
          x = (contentBounds img).left) ∧
      (∃ x y, x < img.width ∧ y < img.height ∧ isContent (img.pix x y) = true ∧
          x = (contentBounds img).right)) ∧
    ((contentBounds img).bottom ≤ (contentBounds img).top ∨
        (contentBounds img).right ≤ (contentBounds img).left →
      trimEmptySpace img = img) ∧
    ((contentBounds img).top < (contentBounds img).bottom →
      (contentBounds img).left < (contentBounds img).right →
      (trimEmptySpace img).width = (contentBounds img).right - (contentBounds img).left + 1 ∧
      (trimEmptySpace img).height = (contentBounds img).bottom - (contentBounds img).top + 1 ∧
      ∀ x y, x < (trimEmptySpace img).width → y < (trimEmptySpace img).height →
        (trimEmptySpace img).pix x y
          = img.pix (x + (contentBounds img).left) (y + (contentBounds img).top)) := by
  refine ⟨?_, fun x y hx hy hc => contentBounds_covers img x y hx hy hc,
    contentBounds_attained img, trimEmptySpace_of_degenerate img, ?_⟩
  · intro p
    unfold isContent
    simp only [Bool.or_eq_true, decide_eq_true_eq]
    tauto
  · intro h1 h2
    rw [trimEmptySpace_of_crop img h1 h2]
    exact ⟨rfl, rfl, fun _ _ _ _ => rfl⟩

/-- A 2×2 image with black content at (0,0) and (1,1) and transparent
white elsewhere. -/
def imgT : Image :=
  ⟨2, 2, fun x y =>
    if (x = 0 ∧ y = 0) ∨ (x = 1 ∧ y = 1) then ⟨0, 0, 0, 255⟩ else ⟨255, 255, 255, 0⟩⟩

theorem claimC4_witness :
    (trimEmptySpace imgT).width
        = (contentBounds imgT).right - (contentBounds imgT).left + 1 ∧
      (trimEmptySpace imgT).height
        = (contentBounds imgT).bottom - (contentBounds imgT).top + 1 := by
  have h := claimC4_trim_spec imgT
  have h5 := h.2.2.2.2 (by decide) (by decide)
  exact ⟨h5.1, h5.2.1⟩

/-- C6: trim is idempotent: trimming a second time changes neither the
dimensions nor any pixel of the first trim's output. -/
theorem claimC6_trim_idempotent (img : Image) :
    (trimEmptySpace (trimEmptySpace img)).Eqv (trimEmptySpace img) := by
  by_cases hdeg : (contentBounds img).bottom ≤ (contentBounds img).top ∨
      (contentBounds img).right ≤ (contentBounds img).left
  · simp only [trimEmptySpace_of_degenerate img hdeg]
    exact Image.Eqv.refl img
  · push_neg at hdeg
    obtain ⟨ht, hl⟩ := hdeg
    have hcontent : HasContent img := by
      by_contra hnc
      have hb := contentBounds_of_no_content img hnc
      rw [hb] at ht
      simp at ht
    obtain ⟨⟨xt, yt, hxt, hyt, hct, hyte⟩, ⟨xb, yb, hxb, hyb, hcb, hybe⟩,
      ⟨xl, yl, hxl, hyl, hcl, hxle⟩, ⟨xr, yr, hxr, hyr, hcr, hxre⟩⟩ :=
      contentBounds_attained img hcontent
    have hcovt := contentBounds_covers img xt yt hxt hyt hct
    have hcovb := contentBounds_covers img xb yb hxb hyb hcb
    have hcovl := contentBounds_covers img xl yl hxl hyl hcl
    have hcovr := contentBounds_covers img xr yr hxr hyr hcr
    have hcrop := trimEmptySpace_of_crop img ht hl
    rw [hcrop]
    set T := (contentBounds img).top with hT
    set Bo := (contentBounds img).bottom with hBo
    set L := (contentBounds img).left with hL
    set R := (contentBounds img).right with hR
    set img2 : Image :=
      { width := R - L + 1
        height := Bo - T + 1
        pix := fun x y => img.pix (x + L) (y + T) } with himg2
    have hw2 : img2.width = R - L + 1 := rfl
    have hh2 : img2.height = Bo - T + 1 := rfl
    have hpix2 : ∀ x y, img2.pix x y = img.pix (x + L) (y + T) := fun _ _ => rfl
    -- content of the crop at the four extreme coordinates
    have hcont_top : isContent (img2.pix (xt - L) 0) = true := by
      rw [hpix2, show xt - L + L = xt from by omega, show 0 + T = T from by omega, ← hyte]
      exact hct
    have hcont_bot : isContent (img2.pix (xb - L) (Bo - T)) = true := by
      rw [hpix2, show xb - L + L = xb from by omega,
        show Bo - T + T = Bo from by omega, ← hybe]
      exact hcb
    have hcont_left : isContent (img2.pix 0 (yl - T)) = true := by
      rw [hpix2, show (0 : ℕ) + L = L from by omega,
        show yl - T + T = yl from by omega, ← hxle]
      exact hcl
    have hcont_right : isContent (img2.pix (R - L) (yr - T)) = true := by
      rw [hpix2, show R - L + L = R from by omega,
        show yr - T + T = yr from by omega, ← hxre]
      exact hcr
    have hcov2t := contentBounds_covers img2 (xt - L) 0 (by rw [hw2]; omega)
      (by rw [hh2]; omega) hcont_top
    have hcov2b := contentBounds_covers img2 (xb - L) (Bo - T) (by rw [hw2]; omega)
      (by rw [hh2]; omega) hcont_bot
    have hcov2l := contentBounds_covers img2 0 (yl - T) (by rw [hw2]; omega)
      (by rw [hh2]; omega) hcont_left
    have hcov2r := contentBounds_covers img2 (R - L) (yr - T) (by rw [hw2]; omega)
      (by rw [hh2]; omega) hcont_right
    have hblt2 := contentBounds_bottom_lt img2 (by rw [hh2]; omega)
    have hrlt2 := contentBounds_right_lt img2 (by rw [hw2]; omega)
    rw [hh2] at hblt2
    rw [hw2] at hrlt2
    have htop2 : (contentBounds img2).top = 0 := by omega
    have hbot2 : (contentBounds img2).bottom = Bo - T := by omega
    have hleft2 : (contentBounds img2).left = 0 := by omega
    have hright2 : (contentBounds img2).right = R - L := by omega
    have hcrop2 := trimEmptySpace_of_crop img2 (by omega) (by omega)
    rw [hcrop2, htop2, hbot2, hleft2, hright2]
    refine ⟨?_, ?_, ?_⟩
    · show R - L - 0 + 1 = R - L + 1
      omega
    · show Bo - T - 0 + 1 = Bo - T + 1
      omega
    · intro x _ y _
      show img2.pix (x + 0) (y + 0) = img2.pix x y
      rfl

/-- C10: for every image in which every pixel has `alpha > 0`,
`trimEmptySpace` returns an image with the input's width and height:
`alpha > 0` alone makes a pixel content, so the content bounding box is the
full rectangle and trimming never shrinks a fully opaque image. -/
theorem claimC10_opaque_trim (img : Image)
    (hop : ∀ x y, x < img.width → y < img.height → 0 < (img.pix x y).a) :
    (trimEmptySpace img).width = img.width ∧
      (trimEmptySpace img).height = img.height := by
  by_cases hc : HasContent img
  · obtain ⟨x0, y0, hx0, hy0, _⟩ := hc
    have hcont : ∀ x y, x < img.width → y < img.height →
        isContent (img.pix x y) = true := by
      intro x y hx hy
      unfold isContent
      rw [decide_eq_true (hop x y hx hy)]
      simp
    have h00 := contentBounds_covers img 0 0 (by omega) (by omega)
      (hcont 0 0 (by omega) (by omega))
    have hwh := contentBounds_covers img (img.width - 1) (img.height - 1)
      (by omega) (by omega)
      (hcont (img.width - 1) (img.height - 1) (by omega) (by omega))
    have hbl := contentBounds_bottom_lt img (by omega)
    have hrl := contentBounds_right_lt img (by omega)
    by_cases hdeg : (contentBounds img).bottom ≤ (contentBounds img).top ∨
        (contentBounds img).right ≤ (contentBounds img).left
    · rw [trimEmptySpace_of_degenerate img hdeg]
      exact ⟨rfl, rfl⟩
    · push_neg at hdeg
      rw [trimEmptySpace_of_crop img hdeg.1 hdeg.2]
      constructor
      · show (contentBounds img).right - (contentBounds img).left + 1 = img.width
        omega
      · show (contentBounds img).bottom - (contentBounds img).top + 1 = img.height
        omega
  · rw [trimEmptySpace_of_degenerate img
      (by rw [contentBounds_of_no_content img hc]; exact Or.inl (Nat.zero_le _))]
    exact ⟨rfl, rfl⟩

theorem claimC10_witness :
    (trimEmptySpace imgW1).width = imgW1.width ∧
      (trimEmptySpace imgW1).height = imgW1.height :=
  claimC10_opaque_trim imgW1 (fun _ _ _ _ => by show (0 : ℕ) < 255; decide)

/-! ## Sharpener on uniform gray (C7) -/

/-- All in-range pixels have R = G = B = `v`. -/
def RGBUniform (v : ℕ) (img : Image) : Prop :=
  ∀ x, x < img.width → ∀ y, y < img.height →
    (img.pix x y).r = v ∧ (img.pix x y).g = v ∧ (img.pix x y).b = v

theorem allCoords_length (img : Image) :
    (allCoords img).length = img.height * img.width := by
  unfold allCoords
  rw [List.length_flatMap]
  have : (List.map (List.length ∘ fun y => (List.range img.width).map fun x => (x, y))
      (List.range img.height))
      = List.map (fun _ => img.width) (List.range img.height) := by
    apply List.map_congr_left
    intro y _
    simp
  rw [this]
  rw [List.map_const']
  rw [List.sum_replicate]
  simp [Nat.mul_comm]

theorem avgBrightness_uniform (img : Image) (v : ℕ) (hw : 0 < img.width)
    (hh : 0 < img.height) (huni : RGBUniform v img) :
    avgBrightness img = (v : ℚ) := by
  unfold avgBrightness
  have hbr : ∀ q ∈ (allCoords img).map fun c => brightnessQ (img.pix c.1 c.2),
      q = (v : ℚ) := by
    intro q hq
    rcases List.mem_map.mp hq with ⟨c, hc, rfl⟩
    rcases (mem_allCoords img c).mp hc with ⟨hcx, hcy⟩
    obtain ⟨hr, hg, hb⟩ := huni c.1 hcx c.2 hcy
    unfold brightnessQ
    rw [hr, hg, hb]
    ring
  rw [List.sum_eq_card_nsmul _ (v : ℚ) hbr]
  rw [List.length_map, allCoords_length, nsmul_eq_mul]
  have hwq : (img.width : ℚ) ≠ 0 := by positivity
  have hhq : (img.height : ℚ) ≠ 0 := by positivity
  push_cast
  field_simp
  ring

theorem contrastChannel_128 : contrastChannel 128 128 = 128 := by
  unfold contrastChannel jsRound clamp255
  norm_num
  decide

theorem unsharpChannel_eq (v : ℕ) : unsharpChannel v v = v := by
  unfold unsharpChannel
  norm_num

theorem darkChannel_128 : darkChannel 128 = 102 := by
  unfold darkChannel
  norm_num
  decide

/-- C7: on a uniform mid-gray image (every pixel `R = G = B = 128`),
`sharpenImage` keeps the dimensions and maps every pixel to
`R = G = B = 102` with unchanged alpha: the contrast stretch is a no-op
(global mean is exactly 128), the unsharp mask is a no-op (any blur that
reproduces uniform fields gives diff 0, within the threshold of 5), and
the dark-pixel boost applies (`128 < 150` on all channels), giving
`floor(128 * 0.8) = 102`. -/
theorem claimC7_uniform_gray (blur : Image → Image) (img : Image)
    (hw : 0 < img.width) (hh : 0 < img.height)
    (huni : RGBUniform 128 img)
    (hblur : ∀ u : Image, RGBUniform 128 u →
      (blur u).width = u.width ∧ (blur u).height = u.height ∧ RGBUniform 128 (blur u)) :
    (sharpenImage blur img).width = img.width ∧
      (sharpenImage blur img).height = img.height ∧
      ∀ x, x < img.width → ∀ y, y < img.height →
        (sharpenImage blur img).pix x y = ⟨102, 102, 102, (img.pix x y).a⟩ := by
  have havg : avgBrightness img = (128 : ℚ) :=
    avgBrightness_uniform img 128 hw hh huni
  have hstage1 : ∀ x, x < img.width → ∀ y, y < img.height →
      (contrastStage img).pix x y = ⟨128, 128, 128, (img.pix x y).a⟩ := by
    intro x hx y hy
    obtain ⟨hr, hg, hb⟩ := huni x hx y hy
    show (⟨contrastChannel (avgBrightness img) (img.pix x y).r,
      contrastChannel (avgBrightness img) (img.pix x y).g,
      contrastChannel (avgBrightness img) (img.pix x y).b, (img.pix x y).a⟩ : RGBA)
      = ⟨128, 128, 128, (img.pix x y).a⟩
    rw [hr, hg, hb, havg, contrastChannel_128]
  have hu1 : RGBUniform 128 (contrastStage img) := by
    intro x hx y hy
    have := hstage1 x hx y hy
    rw [show (contrastStage img).pix x y = (contrastStage img).pix x y from rfl, this]
    exact ⟨rfl, rfl, rfl⟩
  obtain ⟨hbw, hbh, hbu⟩ := hblur (contrastStage img) hu1
  have hstage2 : ∀ x, x < img.width → ∀ y, y < img.height →
      (unsharpStage blur (contrastStage img)).pix x y
        = ⟨128, 128, 128, (img.pix x y).a⟩ := by
    intro x hx y hy
    have hsp := hstage1 x hx y hy
    have hbp := hbu x (by rw [hbw]; exact hx) y (by rw [hbh]; exact hy)
    show (⟨unsharpChannel ((contrastStage img).pix x y).r ((blur (contrastStage img)).pix x y).r,
      unsharpChannel ((contrastStage img).pix x y).g ((blur (contrastStage img)).pix x y).g,
      unsharpChannel ((contrastStage img).pix x y).b ((blur (contrastStage img)).pix x y).b,
      ((contrastStage img).pix x y).a⟩ : RGBA) = ⟨128, 128, 128, (img.pix x y).a⟩
    rw [hsp, hbp.1, hbp.2.1, hbp.2.2]
    rw [unsharpChannel_eq]
  refine ⟨rfl, rfl, ?_⟩
  intro x hx y hy
  have hs2 := hstage2 x hx y hy
  show (if ((unsharpStage blur (contrastStage img)).pix x y).r < 150 ∧
      ((unsharpStage blur (contrastStage img)).pix x y).g < 150 ∧
      ((unsharpStage blur (contrastStage img)).pix x y).b < 150 then
      (⟨darkChannel ((unsharpStage blur (contrastStage img)).pix x y).r,
        darkChannel ((unsharpStage blur (contrastStage img)).pix x y).g,
        darkChannel ((unsharpStage blur (contrastStage img)).pix x y).b,
        ((unsharpStage blur (contrastStage img)).pix x y).a⟩ : RGBA)
    else (unsharpStage blur (contrastStage img)).pix x y)
    = ⟨102, 102, 102, (img.pix x y).a⟩
  rw [hs2]
  rw [if_pos (by norm_num)]
  rw [darkChannel_128]

/-- A 1×1 image of mid-gray pixels with alpha 7. -/
def img128 : Image := ⟨1, 1, fun _ _ => ⟨128, 128, 128, 7⟩⟩

theorem claimC7_witness :
    (sharpenImage (fun u => u) img128).width = img128.width ∧
      (sharpenImage (fun u => u) img128).height = img128.height ∧
      ∀ x, x < img128.width → ∀ y, y < img128.height →
        (sharpenImage (fun u => u) img128).pix x y
          = ⟨102, 102, 102, (img128.pix x y).a⟩ :=
  claimC7_uniform_gray (fun u => u) img128 (by decide) (by decide)
    (fun _ _ _ _ => ⟨rfl, rfl, rfl⟩) (fun _ hu => ⟨rfl, rfl, hu⟩)

/-! ## Error behaviour (C9) -/

theorem detectSplitPointsE_error (img : Image) (threshold : ℚ) (minW : ℕ) (minP : ℚ)
    (hz : img.width = 0 ∨ img.height = 0) :
    detectSplitPointsE img threshold minW minP = Except.error SliceError.invalidImage := by
  unfold detectSplitPointsE getImageDataCheck
  rw [if_pos hz]
  rfl

theorem detectSplitPointsE_ok (img : Image) (threshold : ℚ) (minW : ℕ) (minP : ℚ)
    (hw : 0 < img.width) (hh : 0 < img.height) :
    detectSplitPointsE img threshold minW minP
      = Except.ok (detectSplitPoints img threshold minW minP) := by
  unfold detectSplitPointsE getImageDataCheck
  rw [if_neg (by omega)]
  rfl

theorem mapM_ok_of_forall {α β : Type} (f : α → Except SliceError β) (g : α → β) :
    ∀ l : List α, (∀ a ∈ l, f a = Except.ok (g a)) → l.mapM f = Except.ok (l.map g) := by
  intro l
  induction l with
  | nil => intro _; rfl
  | cons a t ih =>
    intro hall
    rw [List.mapM_cons, hall a (List.mem_cons_self a t),
      ih fun b hb => hall b (List.mem_cons_of_mem a hb)]
    rfl

theorem processRegionE_ok (blur : Image → Image) (applySharpen : Bool) (img : Image)
    (r : ℕ × ℕ) (hw : 0 < img.width) (hr : r.1 < r.2) :
    processRegionE blur applySharpen img r
      = Except.ok (mkSlice (processRegion blur applySharpen img r)) := by
  have hcw : (cropBand img r.1 r.2).width = img.width := rfl
  have hch : (cropBand img r.1 r.2).height = r.2 - r.1 := rfl
  unfold processRegionE
  cases applySharpen with
  | false =>
    show (trimEmptySpaceE (cropBand img r.1 r.2)).bind _ = _
    unfold trimEmptySpaceE getImageDataCheck
    rw [if_neg (by rw [hcw, hch]; omega)]
    rfl
  | true =>
    show (sharpenImageE blur (cropBand img r.1 r.2)).bind _ = _
    unfold sharpenImageE getImageDataCheck
    rw [if_neg (by rw [hcw, hch]; omega)]
    show (trimEmptySpaceE (sharpenImage blur (cropBand img r.1 r.2))).bind _ = _
    unfold trimEmptySpaceE getImageDataCheck
    rw [if_neg (by
      show ¬((cropBand img r.1 r.2).width = 0 ∨ (cropBand img r.1 r.2).height = 0)
      rw [hcw, hch]
      omega)]
    rfl

/-- C9: the pipeline raises a distinguishable `InvalidImage` error exactly
when the input has zero width or zero height (the first `getImageData`
fails before any processing); for every positive-dimension input the whole
pipeline completes without raising and returns the pure result. -/
theorem claimC9_error_iff (blur : Image → Image) (img : Image) (opts : SliceOptions) :
    ((sliceImageE blur img opts = Except.error SliceError.invalidImage) ↔
      (img.width = 0 ∨ img.height = 0)) ∧
    (0 < img.width → 0 < img.height →
      sliceImageE blur img opts = Except.ok (sliceImage blur img opts)) := by
  have hok : 0 < img.width → 0 < img.height →
      sliceImageE blur img opts = Except.ok (sliceImage blur img opts) := by
    intro hw hh
    unfold sliceImageE
    rw [detectSplitPointsE_ok img _ 2 60 hw hh]
    show (if (detectSplitPoints img (120 - opts.splitSensitivity) 2 60).isEmpty then
        [(0, img.height)]
      else consecPairs
        (0 :: (detectSplitPoints img (120 - opts.splitSensitivity) 2 60 ++ [img.height]))).mapM
        (processRegionE blur opts.sharpenImage img)
      = Except.ok (sliceImage blur img opts)
    have hreg : (if (detectSplitPoints img (120 - opts.splitSensitivity) 2 60).isEmpty then
        [(0, img.height)]
      else consecPairs
        (0 :: (detectSplitPoints img (120 - opts.splitSensitivity) 2 60 ++ [img.height])))
        = sliceRegions img opts := rfl
    rw [hreg]
    have hpart := sliceRegions_partition img opts hh
    rw [mapM_ok_of_forall (processRegionE blur opts.sharpenImage img)
      (fun r => mkSlice (processRegion blur opts.sharpenImage img r))
      (sliceRegions img opts)
      (fun r hrm => processRegionE_ok blur opts.sharpenImage img r hw
        (hpart.2.2.2.2 r hrm))]
    rfl
  constructor
  · constructor
    · intro herr
      by_contra hnz
      push_neg at hnz
      rw [hok (by omega) (by omega)] at herr
      cases herr
    · intro hz
      unfold sliceImageE
      rw [detectSplitPointsE_error img _ 2 60 hz]
      rfl
  · exact hok

/-- A 0×5 image (zero width). -/
def imgZ : Image := ⟨0, 5, fun _ _ => ⟨255, 255, 255, 255⟩⟩

theorem claimC9_witness :
    sliceImageE (fun u => u) imgZ optsDefault = Except.error SliceError.invalidImage ∧
      sliceImageE (fun u => u) imgW1 optsDefault
        = Except.ok (sliceImage (fun u => u) imgW1 optsDefault) :=
  ⟨(claimC9_error_iff (fun u => u) imgZ optsDefault).1.mpr (Or.inl rfl),
    (claimC9_error_iff (fun u => u) imgW1 optsDefault).2 (by decide) (by decide)⟩

/-! ## All-white images (C8) -/

theorem runsFrom_nil_of_false (q : ℕ → Bool) (h : ℕ) :
    ∀ n y, h - y ≤ n → (∀ i, y ≤ i → i < h → q i = false) → runsFrom q h y = [] := by
  intro n
  induction n with
  | zero =>
    intro y hn _
    exact runsFrom_stop q h y (by omega)
  | succ n ih =>
    intro y hn hall
    rcases Nat.lt_or_ge y h with hy | hy
    · rw [runsFrom_skip q h y hy (hall y le_rfl hy)]
      exact ih (y + 1) (by omega) fun i h1 h2 => hall i (by omega) h2
    · exact runsFrom_stop q h y hy

theorem detect_empty_of_no_black (img : Image) (threshold : ℚ) (minW : ℕ) (minP : ℚ)
    (hq : ∀ y, y < img.height → isBlackLine img threshold minP y = false) :
    detectSplitPoints img threshold minW minP = [] := by
  unfold detectSplitPoints
  rw [blackLines_eq_runs,
    runsFrom_nil_of_false (isBlackLine img threshold minP) img.height img.height 0
      (by omega) (fun i _ hi => hq i hi)]
  rfl

theorem blackPixelCount_zero (img : Image) (threshold : ℚ) (y : ℕ)
    (h : ∀ x, x < img.width → ¬ brightnessQ (img.pix x y) < threshold) :
    blackPixelCount img threshold y = 0 := by
  unfold blackPixelCount
  rw [List.length_eq_zero]
  rw [List.filter_eq_nil_iff]
  intro x hx
  rw [List.mem_range] at hx
  simpa using h x hx

theorem isBlackLine_false_of_count_zero (img : Image) (threshold minP : ℚ) (y : ℕ)
    (hminP : 0 ≤ minP) (hc : blackPixelCount img threshold y = 0) :
    isBlackLine img threshold minP y = false := by
  unfold isBlackLine
  rw [hc]
  have h2 : ¬(((0 : ℕ) : ℚ) / (img.width : ℚ) * 100 > minP) := by
    push_cast
    rw [zero_div, zero_mul]
    exact not_lt.mpr hminP
  rw [decide_eq_false h2]
  simp

theorem contrastChannel_255 : contrastChannel 255 255 = 255 := by
  unfold contrastChannel jsRound clamp255
  norm_num
  decide

/-- `sharpenImage` maps a uniformly transparent-white image to itself
(pixel for pixel, for any blur that preserves uniformly white RGB). -/
theorem sharpen_transparent_white (blur : Image → Image) (c : Image)
    (hw : 0 < c.width) (hh : 0 < c.height)
    (huni : ∀ x, x < c.width → ∀ y, y < c.height → c.pix x y = ⟨255, 255, 255, 0⟩)
    (hblur : ∀ u : Image, RGBUniform 255 u →
      (blur u).width = u.width ∧ (blur u).height = u.height ∧ RGBUniform 255 (blur u)) :
    ∀ x, x < c.width → ∀ y, y < c.height →
      (sharpenImage blur c).pix x y = ⟨255, 255, 255, 0⟩ := by
  have hrgb : RGBUniform 255 c := by
    intro x hx y hy
    rw [huni x hx y hy]
    exact ⟨rfl, rfl, rfl⟩
  have havg : avgBrightness c = (255 : ℚ) := avgBrightness_uniform c 255 hw hh hrgb
  have hstage1 : ∀ x, x < c.width → ∀ y, y < c.height →
      (contrastStage c).pix x y = ⟨255, 255, 255, 0⟩ := by
    intro x hx y hy
    show (⟨contrastChannel (avgBrightness c) (c.pix x y).r,
      contrastChannel (avgBrightness c) (c.pix x y).g,
      contrastChannel (avgBrightness c) (c.pix x y).b, (c.pix x y).a⟩ : RGBA)
      = ⟨255, 255, 255, 0⟩
    rw [huni x hx y hy, havg, contrastChannel_255]
  have hu1 : RGBUniform 255 (contrastStage c) := by
    intro x hx y hy
    rw [hstage1 x hx y hy]
    exact ⟨rfl, rfl, rfl⟩
  obtain ⟨hbw, hbh, hbu⟩ := hblur (contrastStage c) hu1
  have hstage2 : ∀ x, x < c.width → ∀ y, y < c.height →
      (unsharpStage blur (contrastStage c)).pix x y = ⟨255, 255, 255, 0⟩ := by
    intro x hx y hy
    have hsp := hstage1 x hx y hy
    have hbp := hbu x (by rw [hbw]; exact hx) y (by rw [hbh]; exact hy)
    show (⟨unsharpChannel ((contrastStage c).pix x y).r ((blur (contrastStage c)).pix x y).r,
      unsharpChannel ((contrastStage c).pix x y).g ((blur (contrastStage c)).pix x y).g,
      unsharpChannel ((contrastStage c).pix x y).b ((blur (contrastStage c)).pix x y).b,
      ((contrastStage c).pix x y).a⟩ : RGBA) = ⟨255, 255, 255, 0⟩
    rw [hsp, hbp.1, hbp.2.1, hbp.2.2]
    rw [unsharpChannel_eq]
  intro x hx y hy
  have hs2 := hstage2 x hx y hy
  show (if ((unsharpStage blur (contrastStage c)).pix x y).r < 150 ∧
      ((unsharpStage blur (contrastStage c)).pix x y).g < 150 ∧
      ((unsharpStage blur (contrastStage c)).pix x y).b < 150 then
      (⟨darkChannel ((unsharpStage blur (contrastStage c)).pix x y).r,
        darkChannel ((unsharpStage blur (contrastStage c)).pix x y).g,
        darkChannel ((unsharpStage blur (contrastStage c)).pix x y).b,
        ((unsharpStage blur (contrastStage c)).pix x y).a⟩ : RGBA)
    else (unsharpStage blur (contrastStage c)).pix x y)
    = ⟨255, 255, 255, 0⟩
  rw [hs2]
  rw [if_neg (by norm_num)]

/-- The processed whole-image canvas of the no-split-point branch of
`sliceImage` (lines 291–306): the full-image draw, optionally
sharpened. -/
def processedWhole (blur : Image → Image) (img : Image) (opts : SliceOptions) : Image :=
  if opts.sharpenImage then sharpenImage blur (cropBand img 0 img.height)
  else cropBand img 0 img.height

/-- A 3×3 image that is white in RGB everywhere (so it has no black
content) but fully opaque only at (0,0) and (1,1). -/
def imgC8 : Image :=
  ⟨3, 3, fun x y =>
    ⟨255, 255, 255, if (x = 0 ∧ y = 0) ∨ (x = 1 ∧ y = 1) then 255 else 0⟩⟩

/-- Options with default sensitivity and sharpening disabled. -/
def opts8 : SliceOptions := ⟨true, 50, false⟩

theorem imgC8_detect :
    detectSplitPoints imgC8 (120 - opts8.splitSensitivity) 2 60 = [] := by
  apply detect_empty_of_no_black
  intro y _
  apply isBlackLine_false_of_count_zero _ _ _ _ (by norm_num)
  apply blackPixelCount_zero
  intro x _
  show ¬ (((255 : ℕ) : ℚ) + ((255 : ℕ) : ℚ) + ((255 : ℕ) : ℚ)) / 3
    < 120 - (50 : ℚ)
  norm_num

/-- C8 counterexample: a 3×3 all-white image (every pixel `R = G = B =
255`) with no black content for which `sliceImage` returns a single slice
of dimensions 2×2, not the original 3×3: the image is opaque at (0,0) and
(1,1) only, and `alpha > 0` makes those pixels content, so trim crops to
their bounding box. -/
theorem claimC8_counterexample :
    imgC8.width = 3 ∧ imgC8.height = 3 ∧
      (∀ x, x < imgC8.width → ∀ y, y < imgC8.height →
        (imgC8.pix x y).r = 255 ∧ (imgC8.pix x y).g = 255 ∧ (imgC8.pix x y).b = 255) ∧
      detectSplitPoints imgC8 (120 - opts8.splitSensitivity) 2 60 = [] ∧
      (sliceImage (fun u => u) imgC8 opts8).map (fun s => (s.width, s.height))
        = [(2, 2)] := by
  refine ⟨rfl, rfl, by decide, imgC8_detect, ?_⟩
  have hreg : sliceRegions imgC8 opts8 = [(0, imgC8.height)] := by
    unfold sliceRegions
    rw [imgC8_detect]
    rfl
  unfold sliceImage
  rw [hreg]
  decide

/-- C8 (amended): for every image whose pixels are all transparent white
(`R = G = B = 255`, `alpha = 0`), with `0 ≤ splitSensitivity` and any blur
that preserves uniformly white RGB channels: `detectSplitPoints` (as
invoked by `sliceImage`) returns the empty sequence, `sliceImage` returns
exactly one slice with the original dimensions, and the trim step finds no
content and returns its input unchanged.  (The original claim's "for every
all-white image" fails for images with mixed alpha — see the
counterexample.) -/
theorem claimC8_transparent_white (blur : Image → Image) (img : Image)
    (opts : SliceOptions) (hw : 0 < img.width) (hh : 0 < img.height)
    (hsens : 0 ≤ opts.splitSensitivity)
    (hpix : ∀ x, x < img.width → ∀ y, y < img.height →
      img.pix x y = ⟨255, 255, 255, 0⟩)
    (hblur : ∀ u : Image, RGBUniform 255 u →
      (blur u).width = u.width ∧ (blur u).height = u.height ∧ RGBUniform 255 (blur u)) :
    detectSplitPoints img (120 - opts.splitSensitivity) 2 60 = [] ∧
      (sliceImage blur img opts).length = 1 ∧
      (∀ s ∈ sliceImage blur img opts, s.width = img.width ∧ s.height = img.height) ∧
      ¬ HasContent (processedWhole blur img opts) ∧
      trimEmptySpace (processedWhole blur img opts) = processedWhole blur img opts := by
  have hbr : brightnessQ ⟨255, 255, 255, 0⟩ = (255 : ℚ) := by
    unfold brightnessQ
    norm_num
  have hdet : detectSplitPoints img (120 - opts.splitSensitivity) 2 60 = [] := by
    apply detect_empty_of_no_black
    intro y hy
    apply isBlackLine_false_of_count_zero _ _ _ _ (by norm_num)
    apply blackPixelCount_zero
    intro x hx
    rw [hpix x hx y hy, hbr]
    intro hcon
    have : (120 : ℚ) - opts.splitSensitivity ≤ 120 := by linarith
    linarith
  have hcpix : ∀ x, x < img.width → ∀ y, y < img.height →
      (cropBand img 0 img.height).pix x y = ⟨255, 255, 255, 0⟩ := by
    intro x hx y hy
    exact hpix x hx y hy
  have hproc : ∀ x, x < img.width → ∀ y, y < img.height →
      (processedWhole blur img opts).pix x y = ⟨255, 255, 255, 0⟩ := by
    intro x hx y hy
    unfold processedWhole
    cases hsh : opts.sharpenImage with
    | false =>
      rw [if_neg Bool.false_ne_true]
      exact hcpix x hx y hy
    | true =>
      rw [if_pos rfl]
      exact sharpen_transparent_white blur (cropBand img 0 img.height) hw hh
        hcpix hblur x hx y hy
  have hpw : (processedWhole blur img opts).width = img.width := by
    unfold processedWhole
    cases opts.sharpenImage <;> rfl
  have hph : (processedWhole blur img opts).height = img.height := by
    unfold processedWhole
    cases opts.sharpenImage <;> rfl
  have hnc : ¬ HasContent (processedWhole blur img opts) := by
    rintro ⟨x, y, hx, hy, hc⟩
    rw [hpw] at hx
    rw [hph] at hy
    rw [hproc x hx y hy] at hc
    have : isContent ⟨255, 255, 255, 0⟩ = false := by decide
    rw [this] at hc
    cases hc
  have htrim : trimEmptySpace (processedWhole blur img opts)
      = processedWhole blur img opts :=
    trimEmptySpace_of_degenerate _
      (by rw [contentBounds_of_no_content _ hnc]; exact Or.inl (Nat.zero_le _))
  have hreg : sliceRegions img opts = [(0, img.height)] := by
    unfold sliceRegions
    rw [hdet]
    rfl
  have hslice : sliceImage blur img opts
      = [mkSlice (trimEmptySpace (processedWhole blur img opts))] := by
    unfold sliceImage
    rw [hreg]
    rfl
  refine ⟨hdet, by rw [hslice]; rfl, ?_, hnc, htrim⟩
  intro s hs
  rw [hslice] at hs
  rcases List.mem_singleton.mp hs with rfl
  rw [htrim]
  exact ⟨hpw, hph⟩

/-- A 1×1 transparent white image. -/
def imgTW : Image := ⟨1, 1, fun _ _ => ⟨255, 255, 255, 0⟩⟩

theorem claimC8_witness :
    detectSplitPoints imgTW (120 - optsDefault.splitSensitivity) 2 60 = [] ∧
      (sliceImage (fun u => u) imgTW optsDefault).length = 1 ∧
      (∀ s ∈ sliceImage (fun u => u) imgTW optsDefault,
        s.width = imgTW.width ∧ s.height = imgTW.height) ∧
      ¬ HasContent (processedWhole (fun u => u) imgTW optsDefault) ∧
      trimEmptySpace (processedWhole (fun u => u) imgTW optsDefault)
        = processedWhole (fun u => u) imgTW optsDefault :=
  claimC8_transparent_white (fun u => u) imgTW optsDefault (by decide) (by decide)
    (by show (0 : ℚ) ≤ 50; norm_num) (by decide) (fun _ hu => ⟨rfl, rfl, hu⟩)
